import Mathlib

/-!
Shallow embedding of the procedural sound-effect engine from
`make_witcher_sfx.py` (V1) and `make_witcher_sfx_v2.py` (V2).

Modelling conventions:
* Audio samples are idealized as rationals; a mono signal is `List ℚ`,
  a stereo signal is a list of left/right pairs.
* `np.sin` and `np.hanning` produce transcendental values that have no
  exact rational representation, so they are abstracted as an oscillator
  oracle (`Osc`) shared by both implementations, exactly as both source
  files share the same numpy routines.  Likewise `x ** 2.2` in the void
  recipe is abstracted as the `rpow` field of the oracle.
* Every call to the process-wide random source is modelled as reading a
  fresh element of an explicit draw stream (`Draws`), one stream per
  kind of draw, consumed in source order.
* Python `int(...)` truncation on the nonnegative quantities used by the
  code is the floor; `pyInt` returns the floor clamped to ℕ.
* Numpy raises a broadcast/shape error when a slice assignment or an
  in-place addition has mismatched lengths; operations that can hit such
  an error in the translated code return `Option`, with `none` standing
  for the raised exception.
-/

namespace WitcherSfx

/-- Stereo signal: list of (left, right) sample pairs. -/
abbrev St := List (ℚ × ℚ)

/-- Python int() on a rational: truncation toward zero (num/den in
integer T-division), clamped to ℕ since all uses in the code are
nonnegative sample or window counts. -/
def pyInt (q : ℚ) : ℕ := (q.num / (q.den : ℤ)).toNat

/-- Sample rate constant from both files. -/
def SR : ℚ := 44100

/-- The float64 value of math.pi, as an exact rational. -/
def piQ : ℚ := 884279719003555 / 281474976710656

/-- The 1e-12 silence guard used by peak normalization. -/
def eps : ℚ := 1 / 1000000000000

/-- Value of np.linspace(a, b, m) at index i (for i < m, m ≥ 2). -/
def linspaceVal (a b : ℚ) (m i : ℕ) : ℚ := a + (b - a) * i / (m - 1)

/-- np.linspace(a, b, m) with endpoint=True (the numpy default). -/
def linspace (a b : ℚ) (m : ℕ) : List ℚ :=
  if m = 0 then [] else if m = 1 then [a]
  else (List.range m).map (fun i => linspaceVal a b m i)

/-- Time base np.linspace(0, d, n, endpoint=False) at index i. -/
def tb (d : ℚ) (n i : ℕ) : ℚ := d * i / n

/-- Maximum absolute sample of a mono signal (np.max(np.abs(x))). -/
def peakAbs (l : List ℚ) : ℚ := l.foldr (fun a m => max |a| m) 0

/-- Maximum absolute sample across both channels of a stereo signal. -/
def peakAbsS (l : St) : ℚ := l.foldr (fun a m => max |a.1| (max |a.2| m)) 0

/-- V1 _normalize_peak on a mono signal: (x / (max+1e-12)) * peak. -/
def normalizeMono (x : List ℚ) (peak : ℚ) : List ℚ :=
  let m := peakAbs x + eps
  x.map (fun v => v / m * peak)

/-- Peak normalization of a stereo signal: the scale factor is computed
from the max over both channels, a single global factor. -/
def normalizeSt (x : St) (peak : ℚ) : St :=
  let m := peakAbsS x + eps
  x.map (fun v => (v.1 / m * peak, v.2 / m * peak))

/-- One-pole low-pass body: y_i = y_(i-1) + alpha * (x_i - y_(i-1)). -/
def lowpassGo (alpha prev : ℚ) : List ℚ → List ℚ
  | [] => []
  | a :: as =>
    let y := prev + alpha * (a - prev)
    y :: lowpassGo alpha y as

/-- One-pole low-pass filter (_apply_lowpass / lowpass), with
alpha = dt / (rc + dt), rc = 1 / (2 pi cutoff), dt = 1 / sr. -/
def lowpass (x : List ℚ) (cutoff sr : ℚ) : List ℚ :=
  let rc := 1 / (2 * piQ * cutoff)
  let dt := 1 / sr
  let alpha := dt / (rc + dt)
  match x with
  | [] => []
  | a :: as => a :: lowpassGo alpha a as

/-- One-pole high-pass body: y_i = alpha * (y_(i-1) + x_i - x_(i-1)). -/
def highpassGo (alpha prevY prevX : ℚ) : List ℚ → List ℚ
  | [] => []
  | a :: as =>
    let y := alpha * (prevY + a - prevX)
    y :: highpassGo alpha y a as

/-- One-pole high-pass filter (_apply_highpass / highpass), with
alpha = rc / (rc + dt). -/
def highpass (x : List ℚ) (cutoff sr : ℚ) : List ℚ :=
  let rc := 1 / (2 * piQ * cutoff)
  let dt := 1 / sr
  let alpha := rc / (rc + dt)
  match x with
  | [] => []
  | a :: as => a :: highpassGo alpha a a as

/-- The in-place comb loop: for i in range(d, n): y[i] += f * y[i-d],
as a left fold over the index range, mirroring the source loop. -/
def combLoop (d : ℕ) (f : ℚ) (x : List ℚ) : List ℚ :=
  (List.range x.length).foldl
    (fun y i => if d ≤ i then y.set i (y.getD i 0 + f * y.getD (i - d) 0) else y) x

/-- _comb_filter / comb_filter: run the feedback loop, then peak
normalize to 0.9. -/
def combFilter (x : List ℚ) (delayMs feedback sr : ℚ) : List ℚ :=
  let d := pyInt (sr * delayMs / 1000)
  normalizeMono (combLoop d feedback x) (9/10)

/-- In-place x[:k] *= g where g has length k (numpy slice multiply). -/
def mulSlicePre (x g : List ℚ) : List ℚ :=
  (x.take g.length).zipWith (· * ·) g ++ x.drop g.length

/-- In-place x[-k:] *= g where g has length k. -/
def mulSliceSuf (x g : List ℚ) : List ℚ :=
  x.take (x.length - g.length) ++ (x.drop (x.length - g.length)).zipWith (· * ·) g

/-- Stereo variant of `mulSlicePre`: the gain multiplies both channels
(broadcast of g[:, None]). -/
def mulSlicePreS (x : St) (g : List ℚ) : St :=
  ((x.take g.length).zipWith (fun v gi => (v.1 * gi, v.2 * gi)) g) ++ x.drop g.length

/-- Stereo variant of `mulSliceSuf`. -/
def mulSliceSufS (x : St) (g : List ℚ) : St :=
  x.take (x.length - g.length) ++
    (x.drop (x.length - g.length)).zipWith (fun v gi => (v.1 * gi, v.2 * gi)) g

/-- _fade on a mono signal.  fi = int(sr*fadeIn), fo = int(sr*fadeOut);
multiplies x[:fi] by linspace(0,1,fi) and x[-fo:] by linspace(1,0,fo).
Numpy raises a broadcast error when a nonempty fade window is longer
than the signal, modelled as none. -/
def fadeMono (x : List ℚ) (sr fadeIn fadeOut : ℚ) : Option (List ℚ) :=
  let n := x.length
  let fi := pyInt (sr * fadeIn)
  let fo := pyInt (sr * fadeOut)
  if (0 < fi ∧ n < fi) ∨ (0 < fo ∧ n < fo) then none
  else
    let x1 := if 0 < fi then mulSlicePre x (linspace 0 1 fi) else x
    some (if 0 < fo then mulSliceSuf x1 (linspace 1 0 fo) else x1)

/-- _fade / fade on a stereo signal (the gain ramp applies identically
to both channels via broadcasting). -/
def fadeSt (x : St) (sr fadeIn fadeOut : ℚ) : Option St :=
  let n := x.length
  let fi := pyInt (sr * fadeIn)
  let fo := pyInt (sr * fadeOut)
  if (0 < fi ∧ n < fi) ∨ (0 < fo ∧ n < fo) then none
  else
    let x1 := if 0 < fi then mulSlicePreS x (linspace 0 1 fi) else x
    some (if 0 < fo then mulSliceSufS x1 (linspace 1 0 fo) else x1)

/-- dest[start:start+len(src)] = src (numpy slice assignment, assuming
start + len(src) ≤ len(dest)). -/
def writeSlice (dest : List ℚ) (start : ℕ) (src : List ℚ) : List ℚ :=
  dest.take start ++ src ++ dest.drop (start + src.length)

/-- dest[start:start+len(src)] += src; none when the window overruns the
destination (numpy broadcast error). -/
def addSlice (dest : List ℚ) (start : ℕ) (src : List ℚ) : Option (List ℚ) :=
  if start + src.length ≤ dest.length then
    some (dest.take start ++ (dest.drop start).zipWith (· + ·) src
      ++ dest.drop (start + src.length))
  else none

/-- V1 _envelope_ad over a time base of n samples:
env = ones(n); env[:a] = linspace(0,1,a) when a > 0;
env[a:min(a+d,n)] = linspace(1, 0.2, d)[: min(a+d,n) - a] when d > 0.
The first assignment raises when 0 < a and a > n (shape mismatch). -/
def envelopeAdV1 (n : ℕ) (attack decay sr : ℚ) : Option (List ℚ) :=
  let a := pyInt (attack * sr)
  let d := pyInt (decay * sr)
  if 0 < a ∧ n < a then none
  else
    let env := List.replicate n (1 : ℚ)
    let env := if 0 < a then writeSlice env 0 (linspace 0 1 a) else env
    let env := if 0 < d then
        writeSlice env a ((linspace 1 (1/5) d).take (min (a + d) n - a))
      else env
    some env

/-- V2 inline bell envelope: env = ones(n); env[:a] = linspace(0,1,a);
env[a:a+d] = linspace(1, 0.25, min(d, n-a)).  Raises when a > n. -/
def envelopeAdV2 (n : ℕ) (attack decay sr : ℚ) : Option (List ℚ) :=
  let a := pyInt (attack * sr)
  let d := pyInt (decay * sr)
  if n < a then none
  else
    let env := List.replicate n (1 : ℚ)
    let env := writeSlice env 0 (linspace 0 1 a)
    let env := writeSlice env a (linspace 1 (1/4) (min d (n - a)))
    some env

/-- Oscillator oracle abstracting the transcendental numpy primitives:
sine f t stands for sin(2 pi f t), hann m i for np.hanning(m)[i], and
rpow b e for b ** e (the fractional power in the void recipe). -/
structure Osc where
  sine : ℚ → ℚ → ℚ
  hann : ℕ → ℕ → ℚ
  rpow : ℚ → ℚ → ℚ

/-- Explicit random draw streams, one per kind of draw in the source:
noise for np.random.uniform(-1,1), pos and amp for the crackle
randint/random pairs, jitter for the per-tap reverb random() calls. -/
structure Draws where
  noise : ℕ → ℚ
  pos : ℕ → ℕ
  amp : ℕ → ℚ
  jitter : ℕ → ℚ

/-- The n noise draws consumed by one _noise(n) call. -/
def noiseList (dr : Draws) (n : ℕ) : List ℚ := (List.range n).map dr.noise

/-- Sum of the four fixed bell partials at one time point:
ratios 1.0, 2.01, 2.74, 3.76 with amplitudes 1.0, 0.5, 0.3, 0.2. -/
def partialSum (osc : Osc) (baseF t : ℚ) : ℚ :=
  1 * osc.sine (baseF * 1) t + (1/2) * osc.sine (baseF * (201/100)) t
    + (3/10) * osc.sine (baseF * (137/50)) t + (1/5) * osc.sine (baseF * (94/25)) t

/-- V1 _bell_tone: additive partial sum shaped by _envelope_ad with
attack 0.005 and decay 0.9*duration. -/
def bellToneV1 (osc : Osc) (duration baseF sr : ℚ) : Option (List ℚ) :=
  let n := pyInt (sr * duration)
  let xs := (List.range n).map (fun i => partialSum osc baseF (tb duration n i))
  (envelopeAdV1 n (1/200) (duration * (9/10)) sr).map (fun env => xs.zipWith (· * ·) env)

/-- V2 bell_tone: same partial sum, inline envelope with floor 0.25. -/
def bellToneV2 (osc : Osc) (duration baseF sr : ℚ) : Option (List ℚ) :=
  let n := pyInt (sr * duration)
  let xs := (List.range n).map (fun i => partialSum osc baseF (tb duration n i))
  (envelopeAdV2 n (1/200) (duration * (9/10)) sr).map (fun env => xs.zipWith (· * ·) env)

/-- The delayed copy np.vstack([pad, stereo[:-delay]]) if delay < len
else pad, as the reverb builds it; none when its row count differs from
the signal length (the subsequent += would raise a broadcast error).
Note stereo[:-0] is empty in Python, so delay = 0 on a nonempty signal
also raises. -/
def revTail (st : St) (dly : ℕ) : Option St :=
  let n := st.length
  let tail :=
    if dly < n then
      (if dly = 0 then ([] : St) else List.replicate dly ((0 : ℚ), (0 : ℚ)) ++ st.take (n - dly))
    else List.replicate dly ((0 : ℚ), (0 : ℚ))
  if tail.length = n then some tail else none

/-- One reverb tap: y[:,0] += gain*tail[:,0]; y[:,1] += gain*tail[:,1]*(0.9+0.2*jit). -/
def revAddTap (y : St) (tail : St) (gain jit : ℚ) : St :=
  y.zipWith (fun v w => (v.1 + gain * w.1, v.2 + gain * w.2 * (9/10 + (1/5) * jit))) tail

/-- _reverb_simple / reverb_simple: accumulate numTaps delayed taps with
gains decay^t and per-tap right-channel jitter, then normalize to 0.95.
Tap t (1-based) reads jitter draw number t-1. -/
def reverbSimple (st : St) (sr decay : ℚ) (numTaps : ℕ) (baseDelayMs : ℚ)
    (jit : ℕ → ℚ) : Option St :=
  ((List.range numTaps).foldlM (fun y tIdx =>
      let t : ℕ := tIdx + 1
      let dly := pyInt (sr * (baseDelayMs * (t : ℚ)) / 1000)
      (revTail st dly).map (fun tail => revAddTap y tail (decay ^ t) (jit tIdx)))
    st).map (fun y => normalizeSt y (19/20))

/-- Elementwise sum of two equal-length numpy arrays. -/
def addL (a b : List ℚ) : List ℚ := a.zipWith (· + ·) b

/-- Scalar times array. -/
def smul (c : ℚ) (l : List ℚ) : List ℚ := l.map (fun v => c * v)

/-- np.stack([L, R], axis=1). -/
def stack2 (l r : List ℚ) : St := l.zip r

/-- np.clip(v, 0, 1). -/
def clip01 (v : ℚ) : ℚ := max 0 (min 1 v)

/-- Shared dry chain of the gale recipes: low-passed noise modulated by
two slow sines, high-pass at 80, normalize to 0.8. -/
def galeDry (osc : Osc) (dr : Draws) (d : ℚ) : List ℚ :=
  let n := pyInt (SR * d)
  let base := lowpass (noiseList dr n) 1200 SR
  let modL := (List.range n).map (fun i =>
    let wh := (3/5) * osc.sine (7/10) (tb d n i) + (2/5) * osc.sine (13/10) (tb d n i)
    2/5 + (3/5) * (wh * (1/2) + 1/2))
  let x := base.zipWith (· * ·) modL
  normalizeMono (highpass x 80 SR) (4/5)

/-- V1 sfx_gale: dry chain, mono fade, then asymmetric stereo split
(the right channel low-passes the already faded signal). -/
def sfxGaleV1 (osc : Osc) (dr : Draws) (d : ℚ) : Option St :=
  (fadeMono (galeDry osc dr d) SR (3/100) (12/100)).map
    (fun xf => stack2 xf (lowpass xf 900 SR))

/-- V2 sfx_gale: identical dry chain but the stereo split happens
before the fade, and the fade is applied to the stereo signal. -/
def sfxGaleV2 (osc : Osc) (dr : Draws) (d : ℚ) : Option St :=
  let x := galeDry osc dr d
  fadeSt (stack2 x (lowpass x 900 SR)) SR (3/100) (12/100)

/-- The 18 crackle spikes of the ember recipes: iteration j draws a
position and an amplitude and adds hanning(cl) * (0.9+0.3*amp) at the
position (shape error when the window overruns). -/
def emberCrackles (osc : Osc) (dr : Draws) (n : ℕ) : Option (List ℚ) :=
  let cl := pyInt ((15/1000) * SR)
  (List.range 18).foldlM (fun cr j =>
      let spike := (List.range cl).map (fun i => osc.hann cl i * (9/10 + (3/10) * dr.amp j))
      addSlice cr (dr.pos j) spike)
    (List.replicate n (0 : ℚ))

/-- Shared dry chain of the ember recipes up to normalization. -/
def emberDry (osc : Osc) (dr : Draws) (d : ℚ) : Option (List ℚ) :=
  let n := pyInt (SR * d)
  let rumble := (List.range n).map (fun i =>
    (3/10) * osc.sine 65 (tb d n i) + (1/5) * osc.sine 130 (tb d n i))
  let fizz := highpass (smul (2/5) (noiseList dr n)) 3000 SR
  (emberCrackles osc dr n).map (fun crackles =>
    normalizeMono (addL rumble (addL (smul (1/2) crackles) (smul (1/4) fizz))) (19/20))

/-- V1 sfx_ember: dry chain, mono fade, stereo split, then reverb. -/
def sfxEmberV1 (osc : Osc) (dr : Draws) (d : ℚ) : Option St :=
  (emberDry osc dr d).bind (fun x =>
    (fadeMono x SR (1/200) (1/10)).bind (fun xf =>
      reverbSimple (stack2 xf (lowpass xf 2500 SR)) SR (11/20) 3 45 dr.jitter))

/-- V2 sfx_ember: dry chain, stereo split, reverb, then stereo fade. -/
def sfxEmberV2 (osc : Osc) (dr : Draws) (d : ℚ) : Option St :=
  (emberDry osc dr d).bind (fun x =>
    (reverbSimple (stack2 x (lowpass x 2500 SR)) SR (11/20) 3 45 dr.jitter).bind
      (fun st => fadeSt st SR (1/200) (1/10)))

/-- The ward mix: the bell hit plus 0.7 times its comb-filtered copy,
normalized to 0.9 (identical in both files; only the bell source and
the fade placement differ). -/
def wardMix (hit : List ℚ) : List ℚ :=
  let metal := combFilter hit (29/2) (2/5) SR
  normalizeMono (addL (smul (3/5) hit) (smul (7/10) metal)) (9/10)

/-- V1 sfx_ward: bell hit mixed with its comb-filtered copy, normalize
to 0.9, mono fade, duplicate to stereo, reverb. -/
def sfxWardV1 (osc : Osc) (dr : Draws) (d : ℚ) : Option St :=
  (bellToneV1 osc d 520 SR).bind (fun hit =>
    (fadeMono (wardMix hit) SR (1/500) (1/5)).bind (fun xf =>
      reverbSimple (stack2 xf xf) SR (3/5) 4 30 dr.jitter))

/-- V2 sfx_ward: same mix from the V2 bell, duplicate to stereo,
reverb, then stereo fade. -/
def sfxWardV2 (osc : Osc) (dr : Draws) (d : ℚ) : Option St :=
  (bellToneV2 osc d 520 SR).bind (fun hit =>
    (reverbSimple (stack2 (wardMix hit) (wardMix hit)) SR (3/5) 4 30 dr.jitter).bind
      (fun st => fadeSt st SR (1/500) (1/5)))

/-- Shared dry chain of the snare recipes: hanning burst, high-pass,
comb tail, mix, normalize to 0.95.  The burst slice assignment raises
when the burst is longer than the signal. -/
def snareDry (osc : Osc) (d : ℚ) : Option (List ℚ) :=
  let n := pyInt (SR * d)
  let bl := pyInt ((4/100) * SR)
  if n < bl then none
  else
    let clank := writeSlice (List.replicate n (0 : ℚ)) 0
      ((List.range bl).map (fun i => osc.hann bl i * 1))
    let clank := highpass clank 1200 SR
    let tail := combFilter (smul (3/5) clank) 11 (1/2) SR
    some (normalizeMono (addL (smul (4/5) clank) (smul (3/5) tail)) (19/20))

/-- V1 sfx_snare: dry chain, mono fade (no fade-in), stereo split, reverb. -/
def sfxSnareV1 (osc : Osc) (dr : Draws) (d : ℚ) : Option St :=
  (snareDry osc d).bind (fun x =>
    (fadeMono x SR 0 (1/4)).bind (fun xf =>
      reverbSimple (stack2 xf (lowpass xf 3500 SR)) SR (9/20) 3 25 dr.jitter))

/-- V2 sfx_snare: dry chain, stereo split, reverb, stereo fade. -/
def sfxSnareV2 (osc : Osc) (dr : Draws) (d : ℚ) : Option St :=
  (snareDry osc d).bind (fun x =>
    (reverbSimple (stack2 x (lowpass x 3500 SR)) SR (9/20) 3 25 dr.jitter).bind
      (fun st => fadeSt st SR 0 (1/4)))

/-- The soothe mix: 0.85 bell plus 0.2 high-passed shimmer noise drawn
over the bell length, normalized to 0.9 (identical in both files). -/
def sootheMix (dr : Draws) (bell : List ℚ) : List ℚ :=
  let shimmer := highpass (smul (1/5) (noiseList dr bell.length)) 6000 SR
  normalizeMono (addL (smul (17/20) bell) (smul (1/5) shimmer)) (9/10)

/-- V1 sfx_soothe: bell at 740 plus high-passed shimmer noise,
normalize 0.9, mono fade, slightly asymmetric stereo, reverb. -/
def sfxSootheV1 (osc : Osc) (dr : Draws) (d : ℚ) : Option St :=
  (bellToneV1 osc d 740 SR).bind (fun bell =>
    (fadeMono (sootheMix dr bell) SR (1/100) (7/20)).bind (fun xf =>
      reverbSimple (stack2 xf (smul (19/20) xf)) SR (13/20) 4 55 dr.jitter))

/-- V2 sfx_soothe: same from the V2 bell, reverb before the stereo fade. -/
def sfxSootheV2 (osc : Osc) (dr : Draws) (d : ℚ) : Option St :=
  (bellToneV2 osc d 740 SR).bind (fun bell =>
    let x := sootheMix dr bell
    (reverbSimple (stack2 x (smul (19/20) x)) SR (13/20) 4 55 dr.jitter).bind
      (fun st => fadeSt st SR (1/100) (7/20)))

/-- Shared dry chain of the void recipes. -/
def voidDry (osc : Osc) (dr : Draws) (d : ℚ) : List ℚ :=
  let n := pyInt (SR * d)
  let sub := (List.range n).map (fun i =>
    (7/10) * osc.sine 40 (tb d n i) + (2/5) * osc.sine 80 (tb d n i))
  let texture := lowpass (smul (3/10) (noiseList dr n)) 1200 SR
  let swell := (linspace 0 1 n).map (fun v => clip01 (osc.rpow v (11/5)))
  let xa := sub.zipWith (fun s w => s * (3/5 + (2/5) * w)) swell
  let xb := texture.zipWith (fun tx w => (3/10) * tx * (1 - w * (1/2))) swell
  normalizeMono (addL xa xb) (9/10)

/-- V1 sfx_void: dry chain, mono fade, asymmetric stereo, reverb. -/
def sfxVoidV1 (osc : Osc) (dr : Draws) (d : ℚ) : Option St :=
  let x := voidDry osc dr d
  (fadeMono x SR (3/100) (1/5)).bind (fun xf =>
    reverbSimple (stack2 (smul (19/20) xf) xf) SR (11/20) 4 70 dr.jitter)

/-- V2 sfx_void: dry chain, asymmetric stereo, reverb, stereo fade. -/
def sfxVoidV2 (osc : Osc) (dr : Draws) (d : ℚ) : Option St :=
  let x := voidDry osc dr d
  (reverbSimple (stack2 (smul (19/20) x) x) SR (11/20) 4 70 dr.jitter).bind
    (fun st => fadeSt st SR (3/100) (1/5))

/-- Shared dry chain of the aegis recipes (rising sine, bell, sparkle),
parameterized by the bell implementation of the file at hand. -/
def aegisDry (osc : Osc) (dr : Draws) (d : ℚ) (bell : List ℚ) : List ℚ :=
  let n := pyInt (SR * d)
  let riser := ((List.range n).map (fun i => osc.sine 320 (tb d n i))).zipWith
    (· * ·) (linspace (1/5) 1 n)
  let sparkle := highpass (smul (1/5) (noiseList dr n)) 7000 SR
  normalizeMono (addL (smul (3/5) riser) (addL (smul (7/10) bell) (smul (9/50) sparkle))) (23/25)

/-- V1 sfx_aegis: dry chain, mono fade, duplicated stereo, 5-tap reverb. -/
def sfxAegisV1 (osc : Osc) (dr : Draws) (d : ℚ) : Option St :=
  (bellToneV1 osc d 880 SR).bind (fun bell =>
    let x := aegisDry osc dr d bell
    (fadeMono x SR (1/200) (7/20)).bind (fun xf =>
      reverbSimple (stack2 xf xf) SR (3/5) 5 35 dr.jitter))

/-- V2 sfx_aegis: dry chain from the V2 bell, reverb, stereo fade. -/
def sfxAegisV2 (osc : Osc) (dr : Draws) (d : ℚ) : Option St :=
  (bellToneV2 osc d 880 SR).bind (fun bell =>
    let x := aegisDry osc dr d bell
    (reverbSimple (stack2 x x) SR (3/5) 5 35 dr.jitter).bind
      (fun st => fadeSt st SR (1/200) (7/20)))

/-- The closed recipe catalog. -/
inductive Name where
  | gale | ember | ward | snare | soothe | void | aegis
deriving DecidableEq, Repr

/-- DURATION_S: configured duration of each recipe, in seconds. -/
def durationOf : Name → ℚ
  | .gale => 9/10
  | .ember => 9/10
  | .ward => 9/10
  | .snare => 3/5
  | .soothe => 11/10
  | .void => 1
  | .aegis => 11/10

/-- The V1 catalog dispatch (GENERATORS in make_witcher_sfx.py). -/
def renderV1 (name : Name) (osc : Osc) (dr : Draws) (d : ℚ) : Option St :=
  match name with
  | .gale => sfxGaleV1 osc dr d
  | .ember => sfxEmberV1 osc dr d
  | .ward => sfxWardV1 osc dr d
  | .snare => sfxSnareV1 osc dr d
  | .soothe => sfxSootheV1 osc dr d
  | .void => sfxVoidV1 osc dr d
  | .aegis => sfxAegisV1 osc dr d

/-- The V2 catalog dispatch (GENERATORS in make_witcher_sfx_v2.py). -/
def renderV2 (name : Name) (osc : Osc) (dr : Draws) (d : ℚ) : Option St :=
  match name with
  | .gale => sfxGaleV2 osc dr d
  | .ember => sfxEmberV2 osc dr d
  | .ward => sfxWardV2 osc dr d
  | .snare => sfxSnareV2 osc dr d
  | .soothe => sfxSootheV2 osc dr d
  | .void => sfxVoidV2 osc dr d
  | .aegis => sfxAegisV2 osc dr d

/-! ### Length preservation lemmas -/

theorem linspace_length (a b : ℚ) (m : ℕ) : (linspace a b m).length = m := by
  unfold linspace
  split
  · simp_all
  · split
    · simp_all
    · simp

theorem lowpassGo_length (alpha prev : ℚ) (l : List ℚ) :
    (lowpassGo alpha prev l).length = l.length := by
  induction l generalizing prev with
  | nil => rfl
  | cons a as ih => simp [lowpassGo, ih]

theorem lowpass_length (x : List ℚ) (c sr : ℚ) : (lowpass x c sr).length = x.length := by
  unfold lowpass
  cases x with
  | nil => rfl
  | cons a as => simp [lowpassGo_length]

theorem highpassGo_length (alpha py px : ℚ) (l : List ℚ) :
    (highpassGo alpha py px l).length = l.length := by
  induction l generalizing py px with
  | nil => rfl
  | cons a as ih => simp [highpassGo, ih]

theorem highpass_length (x : List ℚ) (c sr : ℚ) : (highpass x c sr).length = x.length := by
  unfold highpass
  cases x with
  | nil => rfl
  | cons a as => simp [highpassGo_length]

theorem combLoop_length (d : ℕ) (f : ℚ) (x : List ℚ) :
    (combLoop d f x).length = x.length := by
  unfold combLoop
  generalize List.range x.length = idxs
  induction idxs generalizing x with
  | nil => rfl
  | cons i is ih =>
    simp only [List.foldl_cons]
    split
    · rw [ih]
      · simp
    · exact ih x

theorem normalizeMono_length (x : List ℚ) (p : ℚ) :
    (normalizeMono x p).length = x.length := by
  simp [normalizeMono]

theorem normalizeSt_length (x : St) (p : ℚ) :
    (normalizeSt x p).length = x.length := by
  simp [normalizeSt]

theorem combFilter_length (x : List ℚ) (dm f sr : ℚ) :
    (combFilter x dm f sr).length = x.length := by
  simp [combFilter, normalizeMono_length, combLoop_length]

theorem addL_length (a b : List ℚ) : (addL a b).length = min a.length b.length := by
  simp [addL]

theorem smul_length (c : ℚ) (l : List ℚ) : (smul c l).length = l.length := by
  simp [smul]

theorem stack2_length (l r : List ℚ) : (stack2 l r).length = min l.length r.length := by
  simp [stack2]

theorem noiseList_length (dr : Draws) (n : ℕ) : (noiseList dr n).length = n := by
  simp [noiseList]

theorem mulSlicePre_length (x g : List ℚ) (h : g.length ≤ x.length) :
    (mulSlicePre x g).length = x.length := by
  simp [mulSlicePre]
  omega

theorem mulSliceSuf_length (x g : List ℚ) (h : g.length ≤ x.length) :
    (mulSliceSuf x g).length = x.length := by
  simp [mulSliceSuf]
  omega

theorem mulSlicePreS_length (x : St) (g : List ℚ) (h : g.length ≤ x.length) :
    (mulSlicePreS x g).length = x.length := by
  simp [mulSlicePreS]
  omega

theorem mulSliceSufS_length (x : St) (g : List ℚ) (h : g.length ≤ x.length) :
    (mulSliceSufS x g).length = x.length := by
  simp [mulSliceSufS]
  omega

theorem writeSlice_length (dest src : List ℚ) (start : ℕ)
    (h : start + src.length ≤ dest.length) :
    (writeSlice dest start src).length = dest.length := by
  simp [writeSlice]
  omega

theorem fadeMono_some (x : List ℚ) (sr a b : ℚ)
    (ha : pyInt (sr * a) ≤ x.length) (hb : pyInt (sr * b) ≤ x.length) :
    ∃ y, fadeMono x sr a b = some y ∧ y.length = x.length := by
  unfold fadeMono
  have hcond : ¬ ((0 < pyInt (sr * a) ∧ x.length < pyInt (sr * a)) ∨
      (0 < pyInt (sr * b) ∧ x.length < pyInt (sr * b))) := by omega
  simp only [hcond, if_false]
  refine ⟨_, rfl, ?_⟩
  have h1 : (if 0 < pyInt (sr * a) then mulSlicePre x (linspace 0 1 (pyInt (sr * a))) else x).length
      = x.length := by
    split
    · rw [mulSlicePre_length] <;> simp [linspace_length, ha]
    · rfl
  split
  · rw [mulSliceSuf_length] <;> simp [linspace_length, h1, hb]
  · exact h1

theorem fadeSt_some (x : St) (sr a b : ℚ)
    (ha : pyInt (sr * a) ≤ x.length) (hb : pyInt (sr * b) ≤ x.length) :
    ∃ y, fadeSt x sr a b = some y ∧ y.length = x.length := by
  unfold fadeSt
  have hcond : ¬ ((0 < pyInt (sr * a) ∧ x.length < pyInt (sr * a)) ∨
      (0 < pyInt (sr * b) ∧ x.length < pyInt (sr * b))) := by omega
  simp only [hcond, if_false]
  refine ⟨_, rfl, ?_⟩
  have h1 : (if 0 < pyInt (sr * a) then mulSlicePreS x (linspace 0 1 (pyInt (sr * a))) else x).length
      = x.length := by
    split
    · rw [mulSlicePreS_length] <;> simp [linspace_length, ha]
    · rfl
  split
  · rw [mulSliceSufS_length] <;> simp [linspace_length, h1, hb]
  · exact h1

theorem addSlice_some (dest src : List ℚ) (start : ℕ)
    (h : start + src.length ≤ dest.length) :
    ∃ y, addSlice dest start src = some y ∧ y.length = dest.length := by
  unfold addSlice
  simp only [h, if_true]
  refine ⟨_, rfl, ?_⟩
  simp
  omega

theorem envelopeAdV1_some (n : ℕ) (attack decay sr : ℚ)
    (ha : pyInt (attack * sr) ≤ n) :
    ∃ e, envelopeAdV1 n attack decay sr = some e ∧ e.length = n := by
  unfold envelopeAdV1
  have hcond : ¬ (0 < pyInt (attack * sr) ∧ n < pyInt (attack * sr)) := by omega
  simp only [hcond, if_false]
  refine ⟨_, rfl, ?_⟩
  set a := pyInt (attack * sr) with hadef
  set d := pyInt (decay * sr) with hddef
  have h1 : (if 0 < a then writeSlice (List.replicate n (1:ℚ)) 0 (linspace 0 1 a)
      else List.replicate n (1:ℚ)).length = n := by
    split
    · rw [writeSlice_length] <;> simp [linspace_length, ha]
    · simp
  split
  · rw [writeSlice_length]
    · exact h1
    · simp [linspace_length, h1]
      omega
  · exact h1

theorem envelopeAdV2_some (n : ℕ) (attack decay sr : ℚ)
    (ha : pyInt (attack * sr) ≤ n) :
    ∃ e, envelopeAdV2 n attack decay sr = some e ∧ e.length = n := by
  unfold envelopeAdV2
  have hcond : ¬ (n < pyInt (attack * sr)) := by omega
  simp only [hcond, if_false]
  refine ⟨_, rfl, ?_⟩
  set a := pyInt (attack * sr) with hadef
  set d := pyInt (decay * sr) with hddef
  have h1 : (writeSlice (List.replicate n (1:ℚ)) 0 (linspace 0 1 a)).length = n := by
    rw [writeSlice_length] <;> simp [linspace_length, ha]
  rw [writeSlice_length]
  · exact h1
  · simp [linspace_length, h1]
    omega

theorem bellToneV1_some (osc : Osc) (duration baseF sr : ℚ)
    (ha : pyInt ((1/200) * sr) ≤ pyInt (sr * duration)) :
    ∃ l, bellToneV1 osc duration baseF sr = some l ∧ l.length = pyInt (sr * duration) := by
  unfold bellToneV1
  obtain ⟨e, he, hlen⟩ := envelopeAdV1_some (pyInt (sr * duration)) (1/200) (duration * (9/10)) sr ha
  simp only [he, Option.map_some]
  exact ⟨_, rfl, by simp [hlen]⟩

theorem bellToneV2_some (osc : Osc) (duration baseF sr : ℚ)
    (ha : pyInt ((1/200) * sr) ≤ pyInt (sr * duration)) :
    ∃ l, bellToneV2 osc duration baseF sr = some l ∧ l.length = pyInt (sr * duration) := by
  unfold bellToneV2
  obtain ⟨e, he, hlen⟩ := envelopeAdV2_some (pyInt (sr * duration)) (1/200) (duration * (9/10)) sr ha
  simp only [he, Option.map_some]
  exact ⟨_, rfl, by simp [hlen]⟩

theorem revTail_some (st : St) (dly : ℕ) (h0 : 0 < dly) (hn : dly ≤ st.length) :
    ∃ t, revTail st dly = some t ∧ t.length = st.length := by
  unfold revTail
  rcases lt_or_eq_of_le hn with h | h
  · have : dly < st.length := h
    simp only [this, if_true]
    have hne : ¬ dly = 0 := by omega
    simp only [hne, if_false]
    have hl : (List.replicate dly ((0:ℚ),(0:ℚ)) ++ List.take (st.length - dly) st).length
        = st.length := by simp; omega
    simp only [hl, if_pos rfl]
    exact ⟨_, rfl, hl⟩
  · have hlt : ¬ dly < st.length := by omega
    simp only [hlt, if_false]
    have hl : (List.replicate dly ((0:ℚ),(0:ℚ)) : St).length = st.length := by simp [h]
    simp only [hl, if_pos rfl]
    exact ⟨_, rfl, hl⟩

theorem revAddTap_length (y tail : St) (g j : ℚ) :
    (revAddTap y tail g j).length = min y.length tail.length := by
  simp [revAddTap]

theorem reverbSimple_some (st : St) (sr decay : ℚ) (numTaps : ℕ) (baseMs : ℚ)
    (jit : ℕ → ℚ)
    (h : ∀ tIdx < numTaps, 0 < pyInt (sr * (baseMs * ((tIdx + 1 : ℕ) : ℚ)) / 1000) ∧
      pyInt (sr * (baseMs * ((tIdx + 1 : ℕ) : ℚ)) / 1000) ≤ st.length) :
    ∃ y, reverbSimple st sr decay numTaps baseMs jit = some y ∧ y.length = st.length := by
  unfold reverbSimple
  suffices hs : ∀ idxs : List ℕ, (∀ i ∈ idxs, i < numTaps) → ∀ y : St, y.length = st.length →
      ∃ z, (idxs.foldlM (fun y tIdx =>
        (revTail st (pyInt (sr * (baseMs * ((tIdx + 1 : ℕ) : ℚ)) / 1000))).map
          (fun tail => revAddTap y tail (decay ^ (tIdx + 1)) (jit tIdx))) y) = some z ∧
        z.length = st.length by
    obtain ⟨z, hz, hlen⟩ := hs (List.range numTaps) (by simp) st rfl
    rw [hz]
    exact ⟨_, rfl, by simp [normalizeSt_length, hlen]⟩
  intro idxs
  induction idxs with
  | nil => exact fun _ y hy => ⟨y, rfl, hy⟩
  | cons i is ih =>
    intro hmem y hy
    have hi := h i (hmem i (by simp))
    obtain ⟨tail, htail, htlen⟩ := revTail_some st _ hi.1 (by omega)
    simp only [List.foldlM_cons, htail, Option.map_some]
    have : (revAddTap y tail (decay ^ (i + 1)) (jit i)).length = st.length := by
      rw [revAddTap_length, hy, htlen]; omega
    exact ih (fun j hj => hmem j (by simp [hj])) _ this

theorem galeDry_length (osc : Osc) (dr : Draws) (d : ℚ) :
    (galeDry osc dr d).length = pyInt (SR * d) := by
  simp [galeDry, normalizeMono_length, highpass_length, lowpass_length, noiseList_length]

theorem wardMix_length (hit : List ℚ) : (wardMix hit).length = hit.length := by
  simp [wardMix, normalizeMono_length, addL_length, smul_length, combFilter_length]

theorem sootheMix_length (dr : Draws) (bell : List ℚ) :
    (sootheMix dr bell).length = bell.length := by
  simp [sootheMix, normalizeMono_length, addL_length, smul_length, highpass_length,
    noiseList_length]

theorem emberDry_some (osc : Osc) (dr : Draws) (d : ℚ)
    (hpos : ∀ j < 18, dr.pos j + pyInt ((15/1000) * SR) ≤ pyInt (SR * d)) :
    ∃ x, emberDry osc dr d = some x ∧ x.length = pyInt (SR * d) := by
  unfold emberDry emberCrackles
  have hcr : ∀ idxs : List ℕ, (∀ i ∈ idxs, i < 18) → ∀ cr : List ℚ,
      cr.length = pyInt (SR * d) →
      ∃ z, (idxs.foldlM (fun cr j =>
        addSlice cr (dr.pos j) ((List.range (pyInt ((15/1000) * SR))).map
          (fun i => osc.hann (pyInt ((15/1000) * SR)) i * (9/10 + (3/10) * dr.amp j)))) cr)
        = some z ∧ z.length = pyInt (SR * d) := by
    intro idxs
    induction idxs with
    | nil => exact fun _ cr hcr => ⟨cr, rfl, hcr⟩
    | cons j js ih =>
      intro hmem cr hlen
      obtain ⟨z, hz, hzlen⟩ := addSlice_some cr
        ((List.range (pyInt ((15/1000) * SR))).map
          (fun i => osc.hann (pyInt ((15/1000) * SR)) i * (9/10 + (3/10) * dr.amp j)))
        (dr.pos j) (by simpa [hlen] using hpos j (hmem j (by simp)))
      simp only [List.foldlM_cons, hz, Option.some_bind]
      exact ih (fun i hi => hmem i (by simp [hi])) z (hzlen.trans hlen)
  obtain ⟨z, hz, hzlen⟩ := hcr (List.range 18) (by simp)
    (List.replicate (pyInt (SR * d)) (0 : ℚ)) (by simp)
  simp only [hz, Option.map_some']
  exact ⟨_, rfl, by simp [normalizeMono_length, addL_length, smul_length,
    highpass_length, noiseList_length, hzlen]⟩

theorem snareDry_some (osc : Osc) (d : ℚ) (h : pyInt ((4/100) * SR) ≤ pyInt (SR * d)) :
    ∃ x, snareDry osc d = some x ∧ x.length = pyInt (SR * d) := by
  unfold snareDry
  have hcond : ¬ pyInt (SR * d) < pyInt ((4/100) * SR) := by omega
  simp only [hcond, if_false]
  refine ⟨_, rfl, ?_⟩
  have hcl : (writeSlice (List.replicate (pyInt (SR * d)) (0:ℚ)) 0
      ((List.range (pyInt ((4/100) * SR))).map (fun i => osc.hann (pyInt ((4/100) * SR)) i))).length
      = pyInt (SR * d) := by
    rw [writeSlice_length] <;> simp [h]
  simp [normalizeMono_length, addL_length, smul_length, combFilter_length,
    highpass_length, hcl]

theorem voidDry_length (osc : Osc) (dr : Draws) (d : ℚ) :
    (voidDry osc dr d).length = pyInt (SR * d) := by
  simp [voidDry, normalizeMono_length, addL_length, smul_length, lowpass_length,
    noiseList_length, linspace_length]

theorem aegisDry_length (osc : Osc) (dr : Draws) (d : ℚ) (bell : List ℚ)
    (hb : bell.length = pyInt (SR * d)) :
    (aegisDry osc dr d bell).length = pyInt (SR * d) := by
  simp [aegisDry, normalizeMono_length, addL_length, smul_length, highpass_length,
    noiseList_length, linspace_length, hb]

/-! ### Per-recipe render success and sample counts -/

theorem sfxGaleV1_some (osc : Osc) (dr : Draws) (d : ℚ)
    (h1 : pyInt (SR * (3/100)) ≤ pyInt (SR * d)) (h2 : pyInt (SR * (12/100)) ≤ pyInt (SR * d)) :
    ∃ b, sfxGaleV1 osc dr d = some b ∧ b.length = pyInt (SR * d) := by
  unfold sfxGaleV1
  obtain ⟨xf, hf, hfl⟩ := fadeMono_some (galeDry osc dr d) SR (3/100) (12/100)
    (by rw [galeDry_length]; exact h1) (by rw [galeDry_length]; exact h2)
  simp only [hf, Option.map_some']
  exact ⟨_, rfl, by simp [stack2_length, lowpass_length, hfl, galeDry_length]⟩

theorem sfxGaleV2_some (osc : Osc) (dr : Draws) (d : ℚ)
    (h1 : pyInt (SR * (3/100)) ≤ pyInt (SR * d)) (h2 : pyInt (SR * (12/100)) ≤ pyInt (SR * d)) :
    ∃ b, sfxGaleV2 osc dr d = some b ∧ b.length = pyInt (SR * d) := by
  unfold sfxGaleV2
  have hst : (stack2 (galeDry osc dr d) (lowpass (galeDry osc dr d) 900 SR)).length
      = pyInt (SR * d) := by
    simp [stack2_length, lowpass_length, galeDry_length]
  obtain ⟨y, hy, hyl⟩ := fadeSt_some _ SR (3/100) (12/100)
    (by rw [hst]; exact h1) (by rw [hst]; exact h2)
  exact ⟨y, hy, by rw [hyl, hst]⟩

theorem sfxEmberV1_some (osc : Osc) (dr : Draws) (d : ℚ)
    (hpos : ∀ j < 18, dr.pos j + pyInt ((15/1000) * SR) ≤ pyInt (SR * d))
    (h1 : pyInt (SR * (1/200)) ≤ pyInt (SR * d)) (h2 : pyInt (SR * (1/10)) ≤ pyInt (SR * d))
    (hrev : ∀ tIdx < 3, 0 < pyInt (SR * (45 * ((tIdx + 1 : ℕ) : ℚ)) / 1000) ∧
      pyInt (SR * (45 * ((tIdx + 1 : ℕ) : ℚ)) / 1000) ≤ pyInt (SR * d)) :
    ∃ b, sfxEmberV1 osc dr d = some b ∧ b.length = pyInt (SR * d) := by
  unfold sfxEmberV1
  obtain ⟨x, hx, hxl⟩ := emberDry_some osc dr d hpos
  obtain ⟨xf, hf, hfl⟩ := fadeMono_some x SR (1/200) (1/10)
    (by rw [hxl]; exact h1) (by rw [hxl]; exact h2)
  have hst : (stack2 xf (lowpass xf 2500 SR)).length = pyInt (SR * d) := by
    simp [stack2_length, lowpass_length, hfl, hxl]
  obtain ⟨y, hy, hyl⟩ := reverbSimple_some (stack2 xf (lowpass xf 2500 SR)) SR (11/20) 3 45
    dr.jitter (by rw [hst]; exact hrev)
  simp only [hx, Option.some_bind, hf, hy]
  exact ⟨y, rfl, by rw [hyl, hst]⟩

theorem sfxEmberV2_some (osc : Osc) (dr : Draws) (d : ℚ)
    (hpos : ∀ j < 18, dr.pos j + pyInt ((15/1000) * SR) ≤ pyInt (SR * d))
    (h1 : pyInt (SR * (1/200)) ≤ pyInt (SR * d)) (h2 : pyInt (SR * (1/10)) ≤ pyInt (SR * d))
    (hrev : ∀ tIdx < 3, 0 < pyInt (SR * (45 * ((tIdx + 1 : ℕ) : ℚ)) / 1000) ∧
      pyInt (SR * (45 * ((tIdx + 1 : ℕ) : ℚ)) / 1000) ≤ pyInt (SR * d)) :
    ∃ b, sfxEmberV2 osc dr d = some b ∧ b.length = pyInt (SR * d) := by
  unfold sfxEmberV2
  obtain ⟨x, hx, hxl⟩ := emberDry_some osc dr d hpos
  have hst : (stack2 x (lowpass x 2500 SR)).length = pyInt (SR * d) := by
    simp [stack2_length, lowpass_length, hxl]
  obtain ⟨y, hy, hyl⟩ := reverbSimple_some (stack2 x (lowpass x 2500 SR)) SR (11/20) 3 45
    dr.jitter (by rw [hst]; exact hrev)
  obtain ⟨z, hz, hzl⟩ := fadeSt_some y SR (1/200) (1/10)
    (by rw [hyl, hst]; exact h1) (by rw [hyl, hst]; exact h2)
  simp only [hx, Option.some_bind, hy, hz]
  exact ⟨z, rfl, by rw [hzl, hyl, hst]⟩

theorem sfxWardV1_some (osc : Osc) (dr : Draws) (d : ℚ)
    (hb : pyInt ((1/200) * SR) ≤ pyInt (SR * d))
    (h1 : pyInt (SR * (1/500)) ≤ pyInt (SR * d)) (h2 : pyInt (SR * (1/5)) ≤ pyInt (SR * d))
    (hrev : ∀ tIdx < 4, 0 < pyInt (SR * (30 * ((tIdx + 1 : ℕ) : ℚ)) / 1000) ∧
      pyInt (SR * (30 * ((tIdx + 1 : ℕ) : ℚ)) / 1000) ≤ pyInt (SR * d)) :
    ∃ b, sfxWardV1 osc dr d = some b ∧ b.length = pyInt (SR * d) := by
  unfold sfxWardV1
  obtain ⟨hit, hhit, hhl⟩ := bellToneV1_some osc d 520 SR hb
  obtain ⟨xf, hf, hfl⟩ := fadeMono_some (wardMix hit) SR (1/500) (1/5)
    (by rw [wardMix_length, hhl]; exact h1) (by rw [wardMix_length, hhl]; exact h2)
  have hst : (stack2 xf xf).length = pyInt (SR * d) := by
    simp [stack2_length, hfl, wardMix_length, hhl]
  obtain ⟨y, hy, hyl⟩ := reverbSimple_some (stack2 xf xf) SR (3/5) 4 30 dr.jitter
    (by rw [hst]; exact hrev)
  simp only [hhit, Option.some_bind, hf, hy]
  exact ⟨y, rfl, by rw [hyl, hst]⟩

theorem sfxWardV2_some (osc : Osc) (dr : Draws) (d : ℚ)
    (hb : pyInt ((1/200) * SR) ≤ pyInt (SR * d))
    (h1 : pyInt (SR * (1/500)) ≤ pyInt (SR * d)) (h2 : pyInt (SR * (1/5)) ≤ pyInt (SR * d))
    (hrev : ∀ tIdx < 4, 0 < pyInt (SR * (30 * ((tIdx + 1 : ℕ) : ℚ)) / 1000) ∧
      pyInt (SR * (30 * ((tIdx + 1 : ℕ) : ℚ)) / 1000) ≤ pyInt (SR * d)) :
    ∃ b, sfxWardV2 osc dr d = some b ∧ b.length = pyInt (SR * d) := by
  unfold sfxWardV2
  obtain ⟨hit, hhit, hhl⟩ := bellToneV2_some osc d 520 SR hb
  have hst : (stack2 (wardMix hit) (wardMix hit)).length = pyInt (SR * d) := by
    simp [stack2_length, wardMix_length, hhl]
  obtain ⟨y, hy, hyl⟩ := reverbSimple_some (stack2 (wardMix hit) (wardMix hit)) SR (3/5) 4 30
    dr.jitter (by rw [hst]; exact hrev)
  obtain ⟨z, hz, hzl⟩ := fadeSt_some y SR (1/500) (1/5)
    (by rw [hyl, hst]; exact h1) (by rw [hyl, hst]; exact h2)
  simp only [hhit, Option.some_bind, hy, hz]
  exact ⟨z, rfl, by rw [hzl, hyl, hst]⟩

theorem sfxSnareV1_some (osc : Osc) (dr : Draws) (d : ℚ)
    (hb : pyInt ((4/100) * SR) ≤ pyInt (SR * d))
    (h2 : pyInt (SR * (1/4)) ≤ pyInt (SR * d))
    (hrev : ∀ tIdx < 3, 0 < pyInt (SR * (25 * ((tIdx + 1 : ℕ) : ℚ)) / 1000) ∧
      pyInt (SR * (25 * ((tIdx + 1 : ℕ) : ℚ)) / 1000) ≤ pyInt (SR * d)) :
    ∃ b, sfxSnareV1 osc dr d = some b ∧ b.length = pyInt (SR * d) := by
  unfold sfxSnareV1
  obtain ⟨x, hx, hxl⟩ := snareDry_some osc d hb
  obtain ⟨xf, hf, hfl⟩ := fadeMono_some x SR 0 (1/4)
    (by simp [pyInt]) (by rw [hxl]; exact h2)
  have hst : (stack2 xf (lowpass xf 3500 SR)).length = pyInt (SR * d) := by
    simp [stack2_length, lowpass_length, hfl, hxl]
  obtain ⟨y, hy, hyl⟩ := reverbSimple_some (stack2 xf (lowpass xf 3500 SR)) SR (9/20) 3 25
    dr.jitter (by rw [hst]; exact hrev)
  simp only [hx, Option.some_bind, hf, hy]
  exact ⟨y, rfl, by rw [hyl, hst]⟩

theorem sfxSnareV2_some (osc : Osc) (dr : Draws) (d : ℚ)
    (hb : pyInt ((4/100) * SR) ≤ pyInt (SR * d))
    (h2 : pyInt (SR * (1/4)) ≤ pyInt (SR * d))
    (hrev : ∀ tIdx < 3, 0 < pyInt (SR * (25 * ((tIdx + 1 : ℕ) : ℚ)) / 1000) ∧
      pyInt (SR * (25 * ((tIdx + 1 : ℕ) : ℚ)) / 1000) ≤ pyInt (SR * d)) :
    ∃ b, sfxSnareV2 osc dr d = some b ∧ b.length = pyInt (SR * d) := by
  unfold sfxSnareV2
  obtain ⟨x, hx, hxl⟩ := snareDry_some osc d hb
  have hst : (stack2 x (lowpass x 3500 SR)).length = pyInt (SR * d) := by
    simp [stack2_length, lowpass_length, hxl]
  obtain ⟨y, hy, hyl⟩ := reverbSimple_some (stack2 x (lowpass x 3500 SR)) SR (9/20) 3 25
    dr.jitter (by rw [hst]; exact hrev)
  obtain ⟨z, hz, hzl⟩ := fadeSt_some y SR 0 (1/4)
    (by simp [pyInt]) (by rw [hyl, hst]; exact h2)
  simp only [hx, Option.some_bind, hy, hz]
  exact ⟨z, rfl, by rw [hzl, hyl, hst]⟩

theorem sfxSootheV1_some (osc : Osc) (dr : Draws) (d : ℚ)
    (hb : pyInt ((1/200) * SR) ≤ pyInt (SR * d))
    (h1 : pyInt (SR * (1/100)) ≤ pyInt (SR * d)) (h2 : pyInt (SR * (7/20)) ≤ pyInt (SR * d))
    (hrev : ∀ tIdx < 4, 0 < pyInt (SR * (55 * ((tIdx + 1 : ℕ) : ℚ)) / 1000) ∧
      pyInt (SR * (55 * ((tIdx + 1 : ℕ) : ℚ)) / 1000) ≤ pyInt (SR * d)) :
    ∃ b, sfxSootheV1 osc dr d = some b ∧ b.length = pyInt (SR * d) := by
  unfold sfxSootheV1
  obtain ⟨bell, hbell, hbl⟩ := bellToneV1_some osc d 740 SR hb
  obtain ⟨xf, hf, hfl⟩ := fadeMono_some (sootheMix dr bell) SR (1/100) (7/20)
    (by rw [sootheMix_length, hbl]; exact h1) (by rw [sootheMix_length, hbl]; exact h2)
  have hst : (stack2 xf (smul (19/20) xf)).length = pyInt (SR * d) := by
    simp [stack2_length, smul_length, hfl, sootheMix_length, hbl]
  obtain ⟨y, hy, hyl⟩ := reverbSimple_some (stack2 xf (smul (19/20) xf)) SR (13/20) 4 55
    dr.jitter (by rw [hst]; exact hrev)
  simp only [hbell, Option.some_bind, hf, hy]
  exact ⟨y, rfl, by rw [hyl, hst]⟩

theorem sfxSootheV2_some (osc : Osc) (dr : Draws) (d : ℚ)
    (hb : pyInt ((1/200) * SR) ≤ pyInt (SR * d))
    (h1 : pyInt (SR * (1/100)) ≤ pyInt (SR * d)) (h2 : pyInt (SR * (7/20)) ≤ pyInt (SR * d))
    (hrev : ∀ tIdx < 4, 0 < pyInt (SR * (55 * ((tIdx + 1 : ℕ) : ℚ)) / 1000) ∧
      pyInt (SR * (55 * ((tIdx + 1 : ℕ) : ℚ)) / 1000) ≤ pyInt (SR * d)) :
    ∃ b, sfxSootheV2 osc dr d = some b ∧ b.length = pyInt (SR * d) := by
  unfold sfxSootheV2
  obtain ⟨bell, hbell, hbl⟩ := bellToneV2_some osc d 740 SR hb
  have hst : (stack2 (sootheMix dr bell) (smul (19/20) (sootheMix dr bell))).length
      = pyInt (SR * d) := by
    simp [stack2_length, smul_length, sootheMix_length, hbl]
  obtain ⟨y, hy, hyl⟩ := reverbSimple_some _ SR (13/20) 4 55 dr.jitter (by rw [hst]; exact hrev)
  obtain ⟨z, hz, hzl⟩ := fadeSt_some y SR (1/100) (7/20)
    (by rw [hyl, hst]; exact h1) (by rw [hyl, hst]; exact h2)
  simp only [hbell, Option.some_bind, hy, hz]
  exact ⟨z, rfl, by rw [hzl, hyl, hst]⟩

theorem sfxVoidV1_some (osc : Osc) (dr : Draws) (d : ℚ)
    (h1 : pyInt (SR * (3/100)) ≤ pyInt (SR * d)) (h2 : pyInt (SR * (1/5)) ≤ pyInt (SR * d))
    (hrev : ∀ tIdx < 4, 0 < pyInt (SR * (70 * ((tIdx + 1 : ℕ) : ℚ)) / 1000) ∧
      pyInt (SR * (70 * ((tIdx + 1 : ℕ) : ℚ)) / 1000) ≤ pyInt (SR * d)) :
    ∃ b, sfxVoidV1 osc dr d = some b ∧ b.length = pyInt (SR * d) := by
  unfold sfxVoidV1
  obtain ⟨xf, hf, hfl⟩ := fadeMono_some (voidDry osc dr d) SR (3/100) (1/5)
    (by rw [voidDry_length]; exact h1) (by rw [voidDry_length]; exact h2)
  have hst : (stack2 (smul (19/20) xf) xf).length = pyInt (SR * d) := by
    simp [stack2_length, smul_length, hfl, voidDry_length]
  obtain ⟨y, hy, hyl⟩ := reverbSimple_some (stack2 (smul (19/20) xf) xf) SR (11/20) 4 70
    dr.jitter (by rw [hst]; exact hrev)
  simp only [hf, Option.some_bind, hy]
  exact ⟨y, rfl, by rw [hyl, hst]⟩

theorem sfxVoidV2_some (osc : Osc) (dr : Draws) (d : ℚ)
    (h1 : pyInt (SR * (3/100)) ≤ pyInt (SR * d)) (h2 : pyInt (SR * (1/5)) ≤ pyInt (SR * d))
    (hrev : ∀ tIdx < 4, 0 < pyInt (SR * (70 * ((tIdx + 1 : ℕ) : ℚ)) / 1000) ∧
      pyInt (SR * (70 * ((tIdx + 1 : ℕ) : ℚ)) / 1000) ≤ pyInt (SR * d)) :
    ∃ b, sfxVoidV2 osc dr d = some b ∧ b.length = pyInt (SR * d) := by
  unfold sfxVoidV2
  have hst : (stack2 (smul (19/20) (voidDry osc dr d)) (voidDry osc dr d)).length
      = pyInt (SR * d) := by
    simp [stack2_length, smul_length, voidDry_length]
  obtain ⟨y, hy, hyl⟩ := reverbSimple_some _ SR (11/20) 4 70 dr.jitter (by rw [hst]; exact hrev)
  obtain ⟨z, hz, hzl⟩ := fadeSt_some y SR (3/100) (1/5)
    (by rw [hyl, hst]; exact h1) (by rw [hyl, hst]; exact h2)
  simp only [hy, Option.some_bind, hz]
  exact ⟨z, rfl, by rw [hzl, hyl, hst]⟩

theorem sfxAegisV1_some (osc : Osc) (dr : Draws) (d : ℚ)
    (hb : pyInt ((1/200) * SR) ≤ pyInt (SR * d))
    (h1 : pyInt (SR * (1/200)) ≤ pyInt (SR * d)) (h2 : pyInt (SR * (7/20)) ≤ pyInt (SR * d))
    (hrev : ∀ tIdx < 5, 0 < pyInt (SR * (35 * ((tIdx + 1 : ℕ) : ℚ)) / 1000) ∧
      pyInt (SR * (35 * ((tIdx + 1 : ℕ) : ℚ)) / 1000) ≤ pyInt (SR * d)) :
    ∃ b, sfxAegisV1 osc dr d = some b ∧ b.length = pyInt (SR * d) := by
  unfold sfxAegisV1
  obtain ⟨bell, hbell, hbl⟩ := bellToneV1_some osc d 880 SR hb
  obtain ⟨xf, hf, hfl⟩ := fadeMono_some (aegisDry osc dr d bell) SR (1/200) (7/20)
    (by rw [aegisDry_length osc dr d bell hbl]; exact h1)
    (by rw [aegisDry_length osc dr d bell hbl]; exact h2)
  have hst : (stack2 xf xf).length = pyInt (SR * d) := by
    simp [stack2_length, hfl, aegisDry_length osc dr d bell hbl]
  obtain ⟨y, hy, hyl⟩ := reverbSimple_some (stack2 xf xf) SR (3/5) 5 35 dr.jitter
    (by rw [hst]; exact hrev)
  simp only [hbell, Option.some_bind, hf, hy]
  exact ⟨y, rfl, by rw [hyl, hst]⟩

theorem sfxAegisV2_some (osc : Osc) (dr : Draws) (d : ℚ)
    (hb : pyInt ((1/200) * SR) ≤ pyInt (SR * d))
    (h1 : pyInt (SR * (1/200)) ≤ pyInt (SR * d)) (h2 : pyInt (SR * (7/20)) ≤ pyInt (SR * d))
    (hrev : ∀ tIdx < 5, 0 < pyInt (SR * (35 * ((tIdx + 1 : ℕ) : ℚ)) / 1000) ∧
      pyInt (SR * (35 * ((tIdx + 1 : ℕ) : ℚ)) / 1000) ≤ pyInt (SR * d)) :
    ∃ b, sfxAegisV2 osc dr d = some b ∧ b.length = pyInt (SR * d) := by
  unfold sfxAegisV2
  obtain ⟨bell, hbell, hbl⟩ := bellToneV2_some osc d 880 SR hb
  have hst : (stack2 (aegisDry osc dr d bell) (aegisDry osc dr d bell)).length
      = pyInt (SR * d) := by
    simp [stack2_length, aegisDry_length osc dr d bell hbl]
  obtain ⟨y, hy, hyl⟩ := reverbSimple_some _ SR (3/5) 5 35 dr.jitter (by rw [hst]; exact hrev)
  obtain ⟨z, hz, hzl⟩ := fadeSt_some y SR (1/200) (7/20)
    (by rw [hyl, hst]; exact h1) (by rw [hyl, hst]; exact h2)
  simp only [hbell, Option.some_bind, hy, hz]
  exact ⟨z, rfl, by rw [hzl, hyl, hst]⟩

/-- An oracle instance with all transcendental values zero, usable as a
concrete evaluation point. -/
def zeroOsc : Osc := ⟨fun _ _ => 0, fun _ _ => 0, fun _ _ => 0⟩

/-- A draw-stream instance with all draws zero. -/
def zeroDraws : Draws := ⟨fun _ => 0, fun _ => 0, fun _ => 0, fun _ => 0⟩

unseal Rat.mul Rat.add Rat.sub Rat.inv Rat.ofScientific in
/-- C2: every recipe of both implementations, rendered at its configured
duration, produces a buffer whose per-channel sample count is
int(44100 * duration), within one sample of round(duration * 44100); in
particular the ward recipe at duration 0.9 yields a stereo buffer of
39690 sample pairs (two channels of 39690 samples) with no error.  The
only hypothesis is the in-range guarantee of the crackle randint calls
of the ember recipe. -/
theorem C2_sample_counts (osc : Osc) (dr : Draws)
    (hpos : ∀ j < 18, dr.pos j + pyInt ((15/1000) * SR) ≤ pyInt (SR * durationOf Name.ember)) :
    (∀ name : Name, ∃ b1 b2 : St,
      renderV1 name osc dr (durationOf name) = some b1 ∧
      renderV2 name osc dr (durationOf name) = some b2 ∧
      b1.length = pyInt (SR * durationOf name) ∧
      b2.length = pyInt (SR * durationOf name) ∧
      |(pyInt (SR * durationOf name) : ℤ) - round (durationOf name * SR)| ≤ 1) ∧
    (∃ bw : St, renderV2 Name.ward osc dr (9/10) = some bw ∧ bw.length = 39690 ∧
      (bw.map Prod.fst).length = 39690 ∧ (bw.map Prod.snd).length = 39690) := by
  have hward2 := sfxWardV2_some osc dr (9/10) (by decide) (by decide) (by decide) (by decide)
  constructor
  · intro name
    cases name with
    | gale =>
      obtain ⟨b1, h1, l1⟩ := sfxGaleV1_some osc dr (9/10) (by decide) (by decide)
      obtain ⟨b2, h2, l2⟩ := sfxGaleV2_some osc dr (9/10) (by decide) (by decide)
      exact ⟨b1, b2, h1, h2, l1, l2, by norm_num [durationOf, SR, pyInt]⟩
    | ember =>
      obtain ⟨b1, h1, l1⟩ := sfxEmberV1_some osc dr (9/10) (by exact hpos) (by decide)
        (by decide) (by decide)
      obtain ⟨b2, h2, l2⟩ := sfxEmberV2_some osc dr (9/10) (by exact hpos) (by decide)
        (by decide) (by decide)
      exact ⟨b1, b2, h1, h2, l1, l2, by norm_num [durationOf, SR, pyInt]⟩
    | ward =>
      obtain ⟨b1, h1, l1⟩ := sfxWardV1_some osc dr (9/10) (by decide) (by decide) (by decide)
        (by decide)
      obtain ⟨b2, h2, l2⟩ := hward2
      exact ⟨b1, b2, h1, h2, l1, l2, by norm_num [durationOf, SR, pyInt]⟩
    | snare =>
      obtain ⟨b1, h1, l1⟩ := sfxSnareV1_some osc dr (3/5) (by decide) (by decide) (by decide)
      obtain ⟨b2, h2, l2⟩ := sfxSnareV2_some osc dr (3/5) (by decide) (by decide) (by decide)
      exact ⟨b1, b2, h1, h2, l1, l2, by norm_num [durationOf, SR, pyInt]⟩
    | soothe =>
      obtain ⟨b1, h1, l1⟩ := sfxSootheV1_some osc dr (11/10) (by decide) (by decide) (by decide)
        (by decide)
      obtain ⟨b2, h2, l2⟩ := sfxSootheV2_some osc dr (11/10) (by decide) (by decide) (by decide)
        (by decide)
      exact ⟨b1, b2, h1, h2, l1, l2, by norm_num [durationOf, SR, pyInt]⟩
    | void =>
      obtain ⟨b1, h1, l1⟩ := sfxVoidV1_some osc dr 1 (by decide) (by decide) (by decide)
      obtain ⟨b2, h2, l2⟩ := sfxVoidV2_some osc dr 1 (by decide) (by decide) (by decide)
      exact ⟨b1, b2, h1, h2, l1, l2, by norm_num [durationOf, SR, pyInt]⟩
    | aegis =>
      obtain ⟨b1, h1, l1⟩ := sfxAegisV1_some osc dr (11/10) (by decide) (by decide) (by decide)
        (by decide)
      obtain ⟨b2, h2, l2⟩ := sfxAegisV2_some osc dr (11/10) (by decide) (by decide) (by decide)
        (by decide)
      exact ⟨b1, b2, h1, h2, l1, l2, by norm_num [durationOf, SR, pyInt]⟩
  · obtain ⟨bw, hw, lw⟩ := hward2
    have h39 : pyInt (SR * (9/10)) = 39690 := by decide
    exact ⟨bw, hw, by rw [lw, h39], by simp [lw, h39], by simp [lw, h39]⟩

unseal Rat.mul Rat.add Rat.sub Rat.inv Rat.ofScientific in
/-- Witness for C2: at the all-zero oracle and draw streams, the
randint range hypothesis holds and the ward render succeeds with 39690
sample pairs. -/
theorem C2_sample_counts_witness :
    (∀ j < 18, zeroDraws.pos j + pyInt ((15/1000) * SR) ≤ pyInt (SR * durationOf Name.ember)) ∧
    (∃ bw : St, renderV2 Name.ward zeroOsc zeroDraws (9/10) = some bw ∧ bw.length = 39690 ∧
      (bw.map Prod.fst).length = 39690 ∧ (bw.map Prod.snd).length = 39690) :=
  ⟨by decide, (C2_sample_counts zeroOsc zeroDraws (by decide)).2⟩

/-! ### Indexing toolkit -/

/-- Total indexing into a mono signal, zero outside range. -/
def at0 (l : List ℚ) (i : ℕ) : ℚ := l.getD i 0

/-- Total indexing into a stereo signal, silence outside range. -/
def atS (l : St) (i : ℕ) : ℚ × ℚ := l.getD i (0, 0)

theorem at0_of_ge (l : List ℚ) (i : ℕ) (h : l.length ≤ i) : at0 l i = 0 := by
  simp [at0, List.getD_eq_getElem?_getD, List.getElem?_eq_none h]

theorem at0_append_left (l1 l2 : List ℚ) (i : ℕ) (h : i < l1.length) :
    at0 (l1 ++ l2) i = at0 l1 i := by
  simp [at0, List.getD_eq_getElem?_getD, List.getElem?_append_left h]

theorem at0_append_right (l1 l2 : List ℚ) (i : ℕ) (h : l1.length ≤ i) :
    at0 (l1 ++ l2) i = at0 l2 (i - l1.length) := by
  simp [at0, List.getD_eq_getElem?_getD, List.getElem?_append_right h]

theorem at0_take (l : List ℚ) (k i : ℕ) (h : i < k) : at0 (l.take k) i = at0 l i := by
  simp [at0, List.getD_eq_getElem?_getD, List.getElem?_take_of_lt h]

theorem at0_drop (l : List ℚ) (k i : ℕ) : at0 (l.drop k) i = at0 l (k + i) := by
  simp [at0, List.getD_eq_getElem?_getD]

theorem at0_zipWith (f : ℚ → ℚ → ℚ) (a b : List ℚ) (i : ℕ)
    (ha : i < a.length) (hb : i < b.length) :
    at0 (a.zipWith f b) i = f (at0 a i) (at0 b i) := by
  simp [at0, List.getD_eq_getElem?_getD, List.getElem?_zipWith,
    List.getElem?_eq_getElem ha, List.getElem?_eq_getElem hb]

theorem at0_map_range (g : ℕ → ℚ) (n i : ℕ) (h : i < n) :
    at0 ((List.range n).map g) i = g i := by
  simp [at0, List.getD_eq_getElem?_getD, List.getElem?_map, List.getElem?_range h]

theorem at0_replicate (n : ℕ) (c : ℚ) (i : ℕ) (h : i < n) :
    at0 (List.replicate n c) i = c := by
  simp [at0, List.getD_eq_getElem?_getD, List.getElem?_replicate_of_lt h]

theorem at0_set_self (l : List ℚ) (i : ℕ) (a : ℚ) (h : i < l.length) :
    at0 (l.set i a) i = a := by
  simp [at0, List.getD_eq_getElem?_getD, List.getElem?_set_self h]

theorem at0_set_ne (l : List ℚ) (i j : ℕ) (a : ℚ) (h : i ≠ j) :
    at0 (l.set i a) j = at0 l j := by
  simp [at0, List.getD_eq_getElem?_getD, List.getElem?_set_ne h]

theorem at0_map (f : ℚ → ℚ) (l : List ℚ) (i : ℕ) (h : i < l.length) :
    at0 (l.map f) i = f (at0 l i) := by
  simp [at0, List.getD_eq_getElem?_getD, List.getElem?_map, List.getElem?_eq_getElem h]

theorem atS_of_ge (l : St) (i : ℕ) (h : l.length ≤ i) : atS l i = (0, 0) := by
  simp [atS, List.getD_eq_getElem?_getD, List.getElem?_eq_none h]

theorem atS_append_left (l1 l2 : St) (i : ℕ) (h : i < l1.length) :
    atS (l1 ++ l2) i = atS l1 i := by
  simp [atS, List.getD_eq_getElem?_getD, List.getElem?_append_left h]

theorem atS_append_right (l1 l2 : St) (i : ℕ) (h : l1.length ≤ i) :
    atS (l1 ++ l2) i = atS l2 (i - l1.length) := by
  simp [atS, List.getD_eq_getElem?_getD, List.getElem?_append_right h]

theorem atS_take (l : St) (k i : ℕ) (h : i < k) : atS (l.take k) i = atS l i := by
  simp [atS, List.getD_eq_getElem?_getD, List.getElem?_take_of_lt h]

theorem atS_drop (l : St) (k i : ℕ) : atS (l.drop k) i = atS l (k + i) := by
  simp [atS, List.getD_eq_getElem?_getD]

theorem atS_replicate (n : ℕ) (c : ℚ × ℚ) (i : ℕ) (h : i < n) :
    atS (List.replicate n c) i = c := by
  simp [atS, List.getD_eq_getElem?_getD, List.getElem?_replicate_of_lt h]

theorem atS_zipWith (f : ℚ × ℚ → ℚ × ℚ → ℚ × ℚ) (a b : St) (i : ℕ)
    (ha : i < a.length) (hb : i < b.length) :
    atS (a.zipWith f b) i = f (atS a i) (atS b i) := by
  simp [atS, List.getD_eq_getElem?_getD, List.getElem?_zipWith,
    List.getElem?_eq_getElem ha, List.getElem?_eq_getElem hb]

theorem atS_zipWithQ (f : ℚ × ℚ → ℚ → ℚ × ℚ) (a : St) (b : List ℚ) (i : ℕ)
    (ha : i < a.length) (hb : i < b.length) :
    atS (a.zipWith f b) i = f (atS a i) (at0 b i) := by
  simp [atS, at0, List.getD_eq_getElem?_getD, List.getElem?_zipWith,
    List.getElem?_eq_getElem ha, List.getElem?_eq_getElem hb]

theorem atS_map (f : ℚ × ℚ → ℚ × ℚ) (l : St) (i : ℕ) (h : i < l.length) :
    atS (l.map f) i = f (atS l i) := by
  simp [atS, List.getD_eq_getElem?_getD, List.getElem?_map, List.getElem?_eq_getElem h]

theorem atS_stack2 (l r : List ℚ) (i : ℕ) (hl : i < l.length) (hr : i < r.length) :
    atS (stack2 l r) i = (at0 l i, at0 r i) := by
  simp [stack2, atS, at0, List.zip, List.getD_eq_getElem?_getD, List.getElem?_zipWith,
    List.getElem?_eq_getElem hl, List.getElem?_eq_getElem hr]

/-! ### Peak lemmas and C10 -/

theorem peakAbs_nonneg (l : List ℚ) : 0 ≤ peakAbs l := by
  induction l with
  | nil => simp [peakAbs]
  | cons a as ih => simp only [peakAbs, List.foldr_cons] at *; positivity

theorem abs_le_peakAbs (l : List ℚ) (a : ℚ) (h : a ∈ l) : |a| ≤ peakAbs l := by
  induction l with
  | nil => simp at h
  | cons b bs ih =>
    rcases List.mem_cons.mp h with rfl | h2
    · simp [peakAbs]
    · simp only [peakAbs, List.foldr_cons]
      exact le_max_of_le_right (ih h2)

theorem peakAbsS_nonneg (l : St) : 0 ≤ peakAbsS l := by
  induction l with
  | nil => simp [peakAbsS]
  | cons a as ih => simp only [peakAbsS, List.foldr_cons] at *; positivity

theorem absL_le_peakAbsS (l : St) (a : ℚ × ℚ) (h : a ∈ l) : |a.1| ≤ peakAbsS l := by
  induction l with
  | nil => simp at h
  | cons b bs ih =>
    rcases List.mem_cons.mp h with rfl | h2
    · simp [peakAbsS]
    · simp only [peakAbsS, List.foldr_cons]
      exact le_max_of_le_right (le_max_of_le_right (ih h2))

theorem absR_le_peakAbsS (l : St) (a : ℚ × ℚ) (h : a ∈ l) : |a.2| ≤ peakAbsS l := by
  induction l with
  | nil => simp at h
  | cons b bs ih =>
    rcases List.mem_cons.mp h with rfl | h2
    · simp only [peakAbsS, List.foldr_cons]
      exact le_max_of_le_right (le_max_left _ _)
    · simp only [peakAbsS, List.foldr_cons]
      exact le_max_of_le_right (le_max_of_le_right (ih h2))

theorem peakAbs_zero_of (l : List ℚ) (h : ∀ a ∈ l, a = 0) : peakAbs l = 0 := by
  induction l with
  | nil => rfl
  | cons a as ih =>
    have ha := h a (by simp)
    simp only [peakAbs, List.foldr_cons] at *
    rw [ha, ih (fun b hb => h b (by simp [hb]))]
    simp

theorem peakAbsS_zero_of (l : St) (h : ∀ a ∈ l, a = ((0:ℚ), (0:ℚ))) : peakAbsS l = 0 := by
  induction l with
  | nil => rfl
  | cons a as ih =>
    have ha := h a (by simp)
    simp only [peakAbsS, List.foldr_cons] at *
    rw [ha, ih (fun b hb => h b (by simp [hb]))]
    simp

theorem map_self_of_zero (f : ℚ → ℚ) (l : List ℚ) (hf : f 0 = 0)
    (h : ∀ a ∈ l, a = 0) : l.map f = l := by
  induction l with
  | nil => rfl
  | cons a as ih =>
    have ha := h a (by simp)
    simp only [List.map_cons]
    rw [ha, hf, ih (fun b hb => h b (by simp [hb]))]

theorem mapS_self_of_zero (f : ℚ × ℚ → ℚ × ℚ) (l : St) (hf : f (0, 0) = (0, 0))
    (h : ∀ a ∈ l, a = ((0:ℚ), (0:ℚ))) : l.map f = l := by
  induction l with
  | nil => rfl
  | cons a as ih =>
    have ha := h a (by simp)
    simp only [List.map_cons]
    rw [ha, hf, ih (fun b hb => h b (by simp [hb]))]

/-- C10: peak normalization of an all-zero signal (mono or stereo)
returns the very same all-zero signal, with the same shape; the epsilon
keeps the divisor nonzero, so the operation is total; and in this one
case the output peak is 0, which does not reach the positive target
peak. -/
theorem C10_normalize_silence (x : List ℚ) (st : St) (p : ℚ)
    (hx : ∀ a ∈ x, a = 0) (hst : ∀ a ∈ st, a = ((0:ℚ), (0:ℚ))) (hp : 0 < p) :
    normalizeMono x p = x ∧ normalizeSt st p = st ∧
    (normalizeMono x p).length = x.length ∧ (normalizeSt st p).length = st.length ∧
    peakAbs x + eps ≠ 0 ∧ peakAbsS st + eps ≠ 0 ∧
    peakAbs (normalizeMono x p) ≠ p ∧ peakAbsS (normalizeSt st p) ≠ p := by
  have hm : normalizeMono x p = x := by
    unfold normalizeMono
    exact map_self_of_zero _ x (by simp) hx
  have hs : normalizeSt st p = st := by
    unfold normalizeSt
    exact mapS_self_of_zero _ st (by simp) hst
  have hpx : peakAbs x = 0 := peakAbs_zero_of x hx
  have hps : peakAbsS st = 0 := peakAbsS_zero_of st hst
  have heps : (0 : ℚ) < eps := by norm_num [eps]
  refine ⟨hm, hs, by rw [hm], by rw [hs], ?_, ?_, ?_, ?_⟩
  · rw [hpx]; positivity
  · rw [hps]; positivity
  · rw [hm, hpx]; exact fun h => absurd h.symm hp.ne'
  · rw [hs, hps]; exact fun h => absurd h.symm hp.ne'

unseal Rat.mul Rat.add Rat.sub Rat.inv Rat.ofScientific in
/-- Witness for C10 at a concrete silent mono and stereo signal. -/
theorem C10_normalize_silence_witness :
    (∀ a ∈ [(0:ℚ), 0, 0], a = 0) ∧ ((0:ℚ) < 4/5) ∧
    normalizeMono [(0:ℚ), 0, 0] (4/5) = [(0:ℚ), 0, 0] ∧
    peakAbs (normalizeMono [(0:ℚ), 0, 0] (4/5)) ≠ 4/5 :=
  ⟨by decide, by decide,
    (C10_normalize_silence [(0:ℚ), 0, 0] [((0:ℚ), (0:ℚ))] (4/5)
      (by decide) (by decide) (by decide)).1,
    (C10_normalize_silence [(0:ℚ), 0, 0] [((0:ℚ), (0:ℚ))] (4/5)
      (by decide) (by decide) (by decide)).2.2.2.2.2.2.1⟩

/-! ### Comb loop characterization and C6 -/

/-- Reference recursion satisfied by the finished comb loop values when
the delay is positive. -/
def combFun (x : List ℚ) (d : ℕ) (f : ℚ) (i : ℕ) : ℚ :=
  if h : d ≤ i ∧ 0 < d then at0 x i + f * combFun x d f (i - d) else at0 x i
termination_by i
decreasing_by omega

theorem combLoop_inv (x : List ℚ) (d : ℕ) (f : ℚ) (hd : 0 < d) (j : ℕ) :
    ((List.range j).foldl
      (fun y i => if d ≤ i then y.set i (y.getD i 0 + f * y.getD (i - d) 0) else y) x).length
      = x.length ∧
    (∀ i, i < j → i < x.length → at0 ((List.range j).foldl
      (fun y i => if d ≤ i then y.set i (y.getD i 0 + f * y.getD (i - d) 0) else y) x) i
      = combFun x d f i) ∧
    (∀ i, j ≤ i → at0 ((List.range j).foldl
      (fun y i => if d ≤ i then y.set i (y.getD i 0 + f * y.getD (i - d) 0) else y) x) i
      = at0 x i) := by
  induction j with
  | zero => exact ⟨rfl, fun i hi _ => absurd hi (Nat.not_lt_zero i), fun i _ => rfl⟩
  | succ j ih =>
    obtain ⟨ihlen, ihB, ihC⟩ := ih
    rw [List.range_succ, List.foldl_append, List.foldl_cons, List.foldl_nil]
    set P := (List.range j).foldl
      (fun y i => if d ≤ i then y.set i (y.getD i 0 + f * y.getD (i - d) 0) else y) x with hP
    by_cases hdj : d ≤ j
    · simp only [hdj, if_true]
      have hlen : (P.set j (P.getD j 0 + f * P.getD (j - d) 0)).length = x.length := by
        simp [ihlen]
      refine ⟨hlen, ?_, ?_⟩
      · intro i hi hix
        rcases Nat.lt_succ_iff_lt_or_eq.mp hi with hlt | rfl
        · rw [at0_set_ne _ _ _ _ (by omega)]
          exact ihB i hlt hix
        · rw [show P.getD i 0 = at0 P i from rfl, show P.getD (i - d) 0 = at0 P (i - d) from rfl,
            at0_set_self _ _ _ (by omega)]
          rw [ihC i (le_refl i), ihB (i - d) (by omega) (by omega)]
          conv_rhs => rw [combFun]
          simp [hdj, hd]
      · intro i hji
        rw [at0_set_ne _ _ _ _ (by omega)]
        exact ihC i (by omega)
    · simp only [hdj, if_false]
      refine ⟨ihlen, ?_, fun i hji => ihC i (by omega)⟩
      intro i hi hix
      rcases Nat.lt_succ_iff_lt_or_eq.mp hi with hlt | rfl
      · exact ihB i hlt hix
      · rw [ihC i (le_refl i), combFun]
        have : ¬ (d ≤ i ∧ 0 < d) := by omega
        simp [this]

theorem combLoop_at (x : List ℚ) (d : ℕ) (f : ℚ) (hd : 0 < d) (i : ℕ) (hi : i < x.length) :
    at0 (combLoop d f x) i = combFun x d f i := by
  unfold combLoop
  exact (combLoop_inv x d f hd x.length).2.1 i hi hi

theorem combLoop_length' (x : List ℚ) (d : ℕ) (f : ℚ) (hd : 0 < d) :
    (combLoop d f x).length = x.length := combLoop_length d f x

/-- C6: with a positive delay-in-samples d = int(sr*delayMs/1000), the
pre-normalization comb array y is a copy of x below index d and
satisfies y[i] = x[i] + feedback * y[i-d] from index d on, and the
returned filter output is exactly that y peak-normalized to 0.9. -/
theorem C6_comb_recurrence (x : List ℚ) (delayMs feedback sr : ℚ)
    (hd : 0 < pyInt (sr * delayMs / 1000)) :
    (∀ i < x.length, i < pyInt (sr * delayMs / 1000) →
      at0 (combLoop (pyInt (sr * delayMs / 1000)) feedback x) i = at0 x i) ∧
    (∀ i < x.length, pyInt (sr * delayMs / 1000) ≤ i →
      at0 (combLoop (pyInt (sr * delayMs / 1000)) feedback x) i =
        at0 x i + feedback *
          at0 (combLoop (pyInt (sr * delayMs / 1000)) feedback x)
            (i - pyInt (sr * delayMs / 1000))) ∧
    combFilter x delayMs feedback sr =
      normalizeMono (combLoop (pyInt (sr * delayMs / 1000)) feedback x) (9/10) := by
  set d := pyInt (sr * delayMs / 1000) with hdd
  refine ⟨?_, ?_, rfl⟩
  · intro i hi hid
    rw [combLoop_at x d feedback hd i hi, combFun]
    have : ¬ (d ≤ i ∧ 0 < d) := by omega
    simp [this]
  · intro i hi hdi
    rw [combLoop_at x d feedback hd i hi, combLoop_at x d feedback hd (i - d) (by omega)]
    rw [combFun]
    simp [hdi, hd]

unseal Rat.mul Rat.add Rat.sub Rat.inv Rat.ofScientific in
/-- Witness for C6 at a concrete signal with delay 1 sample. -/
theorem C6_comb_recurrence_witness :
    0 < pyInt ((2 : ℚ) * 500 / 1000) ∧
    (∀ i < ([(1 : ℚ), 0, 0, 1] : List ℚ).length, pyInt ((2 : ℚ) * 500 / 1000) ≤ i →
      at0 (combLoop (pyInt ((2 : ℚ) * 500 / 1000)) (1/2) [(1 : ℚ), 0, 0, 1]) i =
        at0 [(1 : ℚ), 0, 0, 1] i + (1/2) *
          at0 (combLoop (pyInt ((2 : ℚ) * 500 / 1000)) (1/2) [(1 : ℚ), 0, 0, 1])
            (i - pyInt ((2 : ℚ) * 500 / 1000))) :=
  ⟨by decide, (C6_comb_recurrence [(1 : ℚ), 0, 0, 1] 500 (1/2) 2 (by decide)).2.1⟩

/-! ### Slice and linspace index lemmas, envelope characterization, C4 -/

theorem linspace_at (a b : ℚ) (m i : ℕ) (h : i < m) :
    at0 (linspace a b m) i = linspaceVal a b m i := by
  unfold linspace
  split
  · omega
  · split
    · have : i = 0 := by omega
      subst this
      simp [at0, linspaceVal]
    · exact at0_map_range _ _ _ h

theorem writeSlice_at (dest src : List ℚ) (start i : ℕ)
    (h : start + src.length ≤ dest.length) :
    at0 (writeSlice dest start src) i =
      if start ≤ i ∧ i < start + src.length then at0 src (i - start) else at0 dest i := by
  unfold writeSlice
  rw [List.append_assoc]
  have htl : (dest.take start).length = start := by simp; omega
  by_cases h1 : i < start
  · rw [at0_append_left _ _ _ (by rw [htl]; omega), at0_take _ _ _ h1]
    have : ¬ (start ≤ i ∧ i < start + src.length) := by omega
    simp [this]
  · rw [at0_append_right _ _ _ (by rw [htl]; omega), htl]
    by_cases h2 : i < start + src.length
    · rw [at0_append_left _ _ _ (by omega)]
      have : start ≤ i ∧ i < start + src.length := by omega
      simp [this]
    · rw [at0_append_right _ _ _ (by omega), at0_drop]
      have heq : start + src.length + (i - start - src.length) = i := by omega
      rw [heq]
      have : ¬ (start ≤ i ∧ i < start + src.length) := by omega
      simp [this]

/-- The per-index value of the V1 attack/decay envelope, as the code
computes it: linear 0 to 1 attack over aN samples, decay values from the
length-dN ramp 1 to 0.2 truncated to fit, and the untouched initial fill
value 1 for every remaining sample. -/
def envSpecV1 (n aN dN i : ℕ) : ℚ :=
  if i < aN then linspaceVal 0 1 aN i
  else if i < min (aN + dN) n then linspaceVal 1 (1/5) dN (i - aN)
  else 1

theorem envelopeAdV1_at (n : ℕ) (attack decay sr : ℚ)
    (ha : pyInt (attack * sr) ≤ n) :
    ∃ e, envelopeAdV1 n attack decay sr = some e ∧ e.length = n ∧
      ∀ i < n, at0 e i = envSpecV1 n (pyInt (attack * sr)) (pyInt (decay * sr)) i := by
  obtain ⟨e, he, hlen⟩ := envelopeAdV1_some n attack decay sr ha
  refine ⟨e, he, hlen, ?_⟩
  intro i hi
  unfold envelopeAdV1 at he
  have hcond : ¬ (0 < pyInt (attack * sr) ∧ n < pyInt (attack * sr)) := by omega
  simp only [hcond, if_false, Option.some_inj] at he
  subst he
  set aN := pyInt (attack * sr) with haN
  set dN := pyInt (decay * sr) with hdN
  set env1 := if 0 < aN then writeSlice (List.replicate n (1:ℚ)) 0 (linspace 0 1 aN)
    else List.replicate n (1:ℚ) with henv1
  have hlen1 : env1.length = n := by
    rw [henv1]
    split
    · rw [writeSlice_length] <;> simp [linspace_length, ha]
    · simp
  have hat1 : at0 env1 i = if i < aN then linspaceVal 0 1 aN i else 1 := by
    rw [henv1]
    by_cases h0 : 0 < aN
    · simp only [h0, if_true]
      rw [writeSlice_at _ _ _ _ (by simp [linspace_length, ha])]
      simp only [Nat.zero_le, true_and, Nat.zero_add, Nat.sub_zero, linspace_length]
      split
      · rename_i hia
        rw [linspace_at _ _ _ _ hia]
      · rename_i hia
        rw [at0_replicate _ _ _ hi]
    · have : ¬ i < aN := by omega
      simp only [h0, if_false, this]
      exact at0_replicate _ _ _ hi
  unfold envSpecV1
  by_cases hd0 : 0 < dN
  · simp only [hd0, if_true]
    have hklen : ((linspace 1 (1/5) dN).take (min (aN + dN) n - aN)).length
        = min (aN + dN) n - aN := by
      simp [linspace_length]
      omega
    rw [writeSlice_at _ _ _ _ (by rw [hklen, hlen1]; omega), hklen]
    split
    · rename_i hmid
      have hlt : i - aN < min (aN + dN) n - aN := by omega
      rw [at0_take _ _ _ hlt, linspace_at _ _ _ _ (by omega)]
      have h1 : ¬ i < aN := by omega
      have h2 : i < min (aN + dN) n := by omega
      simp [h1, h2]
    · rename_i hmid
      rw [hat1]
      split
      · rfl
      · rename_i h1
        have h2 : ¬ i < min (aN + dN) n := by omega
        simp [h2]
  · have hmin : min (aN + dN) n - aN = 0 := by omega
    simp only [hd0, if_false]
    rw [hat1]
    split
    · rfl
    · rename_i h1
      have h2 : ¬ i < min (aN + dN) n := by omega
      simp [h2]

unseal Rat.mul Rat.add Rat.sub Rat.inv Rat.ofScientific in
/-- C4 counterexample: with 5 samples, attack 1 s, decay 2 s at 1 Hz,
the decay window is indices 1 and 2 ending at the value 0.2, yet sample
3 is 1 (the initial fill), not the held last value 0.2: the envelope
does not hold the last decay value over the remaining samples. -/
theorem C4_counterexample :
    envelopeAdV1 5 1 2 1 = some [0, 1, 1/5, 1, 1] ∧
    (envelopeAdV1 5 1 2 1).map (fun e => at0 e 3) = some 1 ∧
    (envelopeAdV1 5 1 2 1).map (fun e => at0 e 2) = some (1/5) ∧
    ((1 : ℚ) ≠ 1/5) := by decide

/-- C4 amended: when the attack window fits the signal (numpy raises a
shape error otherwise), the V1 envelope ramps 0 to 1 linearly over the
attack window, then follows the linear 1 to 0.2 decay ramp truncated to
fit the signal without index overflow, and equals 1.0 (the untouched
initial fill, not the last decay value) on every sample after the decay
window. -/
theorem C4_envelope_ad (n : ℕ) (attack decay sr : ℚ)
    (ha : pyInt (attack * sr) ≤ n) :
    ∃ e, envelopeAdV1 n attack decay sr = some e ∧ e.length = n ∧
      ∀ i < n, at0 e i = envSpecV1 n (pyInt (attack * sr)) (pyInt (decay * sr)) i :=
  envelopeAdV1_at n attack decay sr ha

unseal Rat.mul Rat.add Rat.sub Rat.inv Rat.ofScientific in
/-- Witness for C4 amended, at the counterexample instance. -/
theorem C4_envelope_ad_witness :
    pyInt ((1 : ℚ) * 1) ≤ 5 ∧
    ∃ e, envelopeAdV1 5 1 2 1 = some e ∧ e.length = 5 ∧
      ∀ i < 5, at0 e i = envSpecV1 5 (pyInt ((1:ℚ) * 1)) (pyInt ((2:ℚ) * 1)) i :=
  ⟨by decide, C4_envelope_ad 5 1 2 1 (by decide)⟩

/-! ### Fade characterization and C9 -/

theorem mulSlicePreS_at (x : St) (g : List ℚ) (i : ℕ) (h : g.length ≤ x.length) :
    atS (mulSlicePreS x g) i =
      if i < g.length then ((atS x i).1 * at0 g i, (atS x i).2 * at0 g i) else atS x i := by
  unfold mulSlicePreS
  by_cases h1 : i < g.length
  · rw [atS_append_left _ _ _ (by simp; omega)]
    rw [atS_zipWithQ _ _ _ _ (by simp; omega) h1, atS_take _ _ _ h1]
    simp [h1]
  · rw [atS_append_right _ _ _ (by simp; omega)]
    have hlz : (List.zipWith (fun v gi => (v.1 * gi, v.2 * gi)) (x.take g.length) g).length
        = g.length := by simp; omega
    rw [hlz, atS_drop]
    have heq : g.length + (i - g.length) = i := by omega
    rw [heq]
    simp [h1]

theorem mulSliceSufS_at (x : St) (g : List ℚ) (i : ℕ) (h : g.length ≤ x.length) :
    atS (mulSliceSufS x g) i =
      if x.length - g.length ≤ i ∧ i < x.length then
        ((atS x i).1 * at0 g (i - (x.length - g.length)),
         (atS x i).2 * at0 g (i - (x.length - g.length)))
      else atS x i := by
  unfold mulSliceSufS
  have htl : (x.take (x.length - g.length)).length = x.length - g.length := by simp
  by_cases h1 : i < x.length - g.length
  · rw [atS_append_left _ _ _ (by rw [htl]; omega), atS_take _ _ _ h1,
      if_neg (by omega : ¬ (x.length - g.length ≤ i ∧ i < x.length))]
  · rw [atS_append_right _ _ _ (by rw [htl]; omega), htl]
    by_cases h2 : i < x.length
    · rw [atS_zipWithQ _ _ _ _ (by simp; omega) (by omega), atS_drop]
      have heq : x.length - g.length + (i - (x.length - g.length)) = i := by omega
      rw [heq, if_pos (by omega : x.length - g.length ≤ i ∧ i < x.length)]
    · have hz : (List.zipWith (fun v gi => (v.1 * gi, v.2 * gi))
          (x.drop (x.length - g.length)) g).length ≤ i - (x.length - g.length) := by
        simp
        omega
      rw [atS_of_ge _ _ hz, atS_of_ge _ _ (by omega),
        if_neg (by omega : ¬ (x.length - g.length ≤ i ∧ i < x.length))]

/-- The total per-sample gain the fade applies at index i of a signal
of n samples: the fade-in ramp value below fi, times the fade-out ramp
value in the last fo samples. -/
def fadeGain (n fi fo i : ℕ) : ℚ :=
  (if i < fi then linspaceVal 0 1 fi i else 1) *
  (if n - fo ≤ i ∧ i < n then linspaceVal 1 0 fo (i - (n - fo)) else 1)

theorem fadeSt_at (x : St) (sr a b : ℚ)
    (hfi : pyInt (sr * a) ≤ x.length) (hfo : pyInt (sr * b) ≤ x.length) :
    ∃ y, fadeSt x sr a b = some y ∧ y.length = x.length ∧
      ∀ i < x.length, atS y i =
        (fadeGain x.length (pyInt (sr * a)) (pyInt (sr * b)) i * (atS x i).1,
         fadeGain x.length (pyInt (sr * a)) (pyInt (sr * b)) i * (atS x i).2) := by
  obtain ⟨y, hy, hyl⟩ := fadeSt_some x sr a b hfi hfo
  refine ⟨y, hy, hyl, ?_⟩
  intro i hi
  unfold fadeSt at hy
  set fi := pyInt (sr * a) with hfidef
  set fo := pyInt (sr * b) with hfodef
  have hcond : ¬ ((0 < fi ∧ x.length < fi) ∨ (0 < fo ∧ x.length < fo)) := by omega
  simp only [hcond, if_false, Option.some_inj] at hy
  subst hy
  set x1 := if 0 < fi then mulSlicePreS x (linspace 0 1 fi) else x with hx1
  have hx1len : x1.length = x.length := by
    rw [hx1]
    split
    · rw [mulSlicePreS_length] <;> simp [linspace_length, hfi]
    · rfl
  have hat1 : atS x1 i =
      ((if i < fi then linspaceVal 0 1 fi i else 1) * (atS x i).1,
       (if i < fi then linspaceVal 0 1 fi i else 1) * (atS x i).2) := by
    rw [hx1]
    by_cases h0 : 0 < fi
    · simp only [h0, if_true]
      rw [mulSlicePreS_at _ _ _ (by simp [linspace_length, hfi]), linspace_length]
      split
      · rename_i hilt
        rw [linspace_at _ _ _ _ hilt]
        simp [hilt, mul_comm]
      · rename_i hilt
        simp [hilt]
    · have : ¬ i < fi := by omega
      simp [h0, this]
  by_cases hfo0 : 0 < fo
  · simp only [hfo0, if_true]
    rw [mulSliceSufS_at _ _ _ (by simp [linspace_length, hx1len, hfo]), linspace_length, hx1len]
    unfold fadeGain
    by_cases hmid : x.length - fo ≤ i ∧ i < x.length
    · rw [if_pos hmid, if_pos hmid, linspace_at _ _ _ _ (by omega), hat1]
      ring_nf
    · rw [if_neg hmid, if_neg hmid, hat1]
      ring_nf
  · have hmid : ¬ (x.length - fo ≤ i ∧ i < x.length) := by omega
    simp only [hfo0, if_false]
    rw [hat1]
    unfold fadeGain
    rw [if_neg hmid]
    ring_nf

unseal Rat.mul Rat.add Rat.sub Rat.inv Rat.ofScientific in
/-- C9 counterexample: with sample rate 1, fadeIn 0.5 s (positive) and
fadeOut 1 s (positive) on a 3-sample stereo signal of ones, the fade-in
window truncates to 0 samples and the fade-out ramp np.linspace(1,0,1)
is the single value 1, so both the first and last samples keep gain 1
instead of being approximately 0. -/
theorem C9_counterexample :
    ((0 : ℚ) < 1/2) ∧ ((0 : ℚ) < 1) ∧
    fadeSt [((1:ℚ), (1:ℚ)), (1, 1), (1, 1)] 1 (1/2) 1
      = some [((1:ℚ), (1:ℚ)), (1, 1), (1, 1)] ∧
    ((1 : ℚ) ≠ 0) := by decide

/-- C9 amended: when the fade windows round to at least 1 sample
(fade-in) and at least 2 samples (fade-out) and together fit strictly
inside the signal, the faded first sample is exactly 0, the sample at
the fade-in boundary is unchanged, the last sample is exactly 0, the
sample just before the fade-out window is unchanged, and every sample
of both channels is scaled by one common per-index gain. -/
theorem C9_fade (x : St) (sr a b : ℚ)
    (h1 : 1 ≤ pyInt (sr * a)) (h2 : 2 ≤ pyInt (sr * b))
    (h3 : pyInt (sr * a) + pyInt (sr * b) < x.length) :
    ∃ y, fadeSt x sr a b = some y ∧ y.length = x.length ∧
      atS y 0 = (0, 0) ∧
      atS y (pyInt (sr * a)) = atS x (pyInt (sr * a)) ∧
      atS y (x.length - 1) = (0, 0) ∧
      atS y (x.length - pyInt (sr * b) - 1) = atS x (x.length - pyInt (sr * b) - 1) ∧
      ∀ i < x.length, ∃ g : ℚ, atS y i = (g * (atS x i).1, g * (atS x i).2) := by
  set fi := pyInt (sr * a) with hfidef
  set fo := pyInt (sr * b) with hfodef
  obtain ⟨y, hy, hyl, hat⟩ := fadeSt_at x sr a b (by omega) (by omega)
  refine ⟨y, hy, hyl, ?_, ?_, ?_, ?_, fun i hi => ⟨fadeGain x.length fi fo i, hat i hi⟩⟩
  · rw [hat 0 (by omega)]
    have hg : fadeGain x.length fi fo 0 = 0 := by
      unfold fadeGain
      have c1 : 0 < fi := by omega
      have c2 : ¬ (x.length - fo ≤ 0 ∧ 0 < x.length) := by omega
      simp [c1, c2, linspaceVal]
    rw [hg]
    simp
  · rw [hat fi (by omega)]
    have hg : fadeGain x.length fi fo fi = 1 := by
      unfold fadeGain
      have c1 : ¬ fi < fi := by omega
      have c2 : ¬ (x.length - fo ≤ fi ∧ fi < x.length) := by omega
      rw [if_neg c1, if_neg c2, mul_one]
    rw [hg]
    simp
  · rw [hat (x.length - 1) (by omega)]
    have hg : fadeGain x.length fi fo (x.length - 1) = 0 := by
      unfold fadeGain
      have c1 : ¬ x.length - 1 < fi := by omega
      have c2 : x.length - fo ≤ x.length - 1 ∧ x.length - 1 < x.length := by omega
      have c3 : x.length - 1 - (x.length - fo) = fo - 1 := by omega
      rw [if_neg c1, if_pos c2, c3, one_mul]
      unfold linspaceVal
      have hne : (fo : ℚ) - 1 ≠ 0 := by
        have h : (2 : ℚ) ≤ (fo : ℚ) := by exact_mod_cast h2
        intro hc
        rw [sub_eq_zero] at hc
        rw [hc] at h
        norm_num at h
      have hcast : ((fo - 1 : ℕ) : ℚ) = (fo : ℚ) - 1 := by
        have hfo1 : 1 ≤ fo := by omega
        push_cast [hfo1]
        ring
      rw [hcast, mul_div_assoc, div_self hne]
      ring
    rw [hg]
    simp
  · rw [hat (x.length - fo - 1) (by omega)]
    have hg : fadeGain x.length fi fo (x.length - fo - 1) = 1 := by
      unfold fadeGain
      have c1 : ¬ x.length - fo - 1 < fi := by omega
      have c2 : ¬ (x.length - fo ≤ x.length - fo - 1 ∧ x.length - fo - 1 < x.length) := by
        omega
      rw [if_neg c1, if_neg c2, mul_one]
    rw [hg]
    simp

unseal Rat.mul Rat.add Rat.sub Rat.inv Rat.ofScientific in
/-- Witness for C9 amended on a concrete 5-sample signal with 1-sample
fade-in and 2-sample fade-out. -/
theorem C9_fade_witness :
    (1 ≤ pyInt ((1:ℚ) * 1) ∧ 2 ≤ pyInt ((1:ℚ) * 2) ∧
      pyInt ((1:ℚ) * 1) + pyInt ((1:ℚ) * 2) <
        ([((2:ℚ), (3:ℚ)), (5, 7), (11, 13), (17, 19), (23, 29)] : St).length) ∧
    (∃ y, fadeSt [((2:ℚ), (3:ℚ)), (5, 7), (11, 13), (17, 19), (23, 29)] 1 1 2 = some y ∧
      y.length = 5 ∧
      atS y 0 = (0, 0) ∧
      atS y (pyInt ((1:ℚ) * 1)) = atS [((2:ℚ), (3:ℚ)), (5, 7), (11, 13), (17, 19), (23, 29)]
        (pyInt ((1:ℚ) * 1)) ∧
      atS y (5 - 1) = (0, 0) ∧
      atS y (5 - pyInt ((1:ℚ) * 2) - 1) = atS [((2:ℚ), (3:ℚ)), (5, 7), (11, 13), (17, 19), (23, 29)]
        (5 - pyInt ((1:ℚ) * 2) - 1) ∧
      ∀ i < 5, ∃ g : ℚ, atS y i =
        (g * (atS [((2:ℚ), (3:ℚ)), (5, 7), (11, 13), (17, 19), (23, 29)] i).1,
         g * (atS [((2:ℚ), (3:ℚ)), (5, 7), (11, 13), (17, 19), (23, 29)] i).2)) :=
  ⟨⟨by decide, by decide, by decide⟩,
    C9_fade [((2:ℚ), (3:ℚ)), (5, 7), (11, 13), (17, 19), (23, 29)] 1 1 2
      (by decide) (by decide) (by decide)⟩

/-! ### Filter stability and C8 -/

theorem lowpassGo_mem_bound (alpha M : ℚ) (h0 : 0 ≤ alpha) (h1 : alpha ≤ 1)
    (l : List ℚ) (prev : ℚ) (hprev : |prev| ≤ M) (hl : ∀ a ∈ l, |a| ≤ M) :
    ∀ y ∈ lowpassGo alpha prev l, |y| ≤ M := by
  induction l generalizing prev with
  | nil => simp [lowpassGo]
  | cons a as ih =>
    have ha := hl a (by simp)
    have hstep : |prev + alpha * (a - prev)| ≤ M := by
      have hrw : prev + alpha * (a - prev) = (1 - alpha) * prev + alpha * a := by ring
      rw [hrw]
      calc |(1 - alpha) * prev + alpha * a| ≤ |(1 - alpha) * prev| + |alpha * a| :=
            abs_add _ _
        _ = (1 - alpha) * |prev| + alpha * |a| := by
            rw [abs_mul, abs_mul, abs_of_nonneg (by linarith), abs_of_nonneg h0]
        _ ≤ (1 - alpha) * M + alpha * M := by
            apply add_le_add
            · exact mul_le_mul_of_nonneg_left hprev (by linarith)
            · exact mul_le_mul_of_nonneg_left ha h0
        _ = M := by ring
    intro y hy
    simp only [lowpassGo, List.mem_cons] at hy
    rcases hy with rfl | hy2
    · exact hstep
    · exact ih _ hstep (fun b hb => hl b (by simp [hb])) y hy2

theorem highpassGo_mem_bound (alpha M : ℚ) (h0 : 0 ≤ alpha) (h1 : alpha ≤ 1)
    (l : List ℚ) (prevY prevX : ℚ)
    (hl : ∀ a ∈ l, |a| ≤ M) (hpx : |prevX| ≤ M)
    (hu : |prevY - alpha * prevX| ≤ max alpha (1 - alpha) * M) :
    ∀ y ∈ highpassGo alpha prevY prevX l, |y| ≤ 2 * M := by
  induction l generalizing prevY prevX with
  | nil => simp [highpassGo]
  | cons a as ih =>
    have hM : 0 ≤ M := le_trans (abs_nonneg _) hpx
    have ha := hl a (by simp)
    have hinv : |alpha * (prevY + a - prevX) - alpha * a| ≤ max alpha (1 - alpha) * M := by
      have hrw : alpha * (prevY + a - prevX) - alpha * a
          = alpha * (prevY - alpha * prevX) - alpha * (1 - alpha) * prevX := by ring
      rw [hrw]
      have hb1 : |alpha * (prevY - alpha * prevX)| ≤ alpha * (max alpha (1 - alpha) * M) := by
        rw [abs_mul, abs_of_nonneg h0]
        exact mul_le_mul_of_nonneg_left hu h0
      have hb2 : |alpha * (1 - alpha) * prevX| ≤ alpha * (1 - alpha) * M := by
        rw [abs_mul, abs_mul, abs_of_nonneg h0, abs_of_nonneg (by linarith : (0:ℚ) ≤ 1 - alpha)]
        exact mul_le_mul_of_nonneg_left hpx (mul_nonneg h0 (by linarith))
      calc |alpha * (prevY - alpha * prevX) - alpha * (1 - alpha) * prevX|
          ≤ |alpha * (prevY - alpha * prevX)| + |alpha * (1 - alpha) * prevX| :=
            abs_sub _ _
        _ ≤ alpha * (max alpha (1 - alpha) * M) + alpha * (1 - alpha) * M := by
            exact add_le_add hb1 hb2
        _ ≤ max alpha (1 - alpha) * M := by
            have hM : 0 ≤ M := le_trans (abs_nonneg _) hpx
            rcases max_cases alpha (1 - alpha) with ⟨hmx, hge⟩ | ⟨hmx, hlt⟩
            · rw [hmx]
              have heq : alpha * (alpha * M) + alpha * (1 - alpha) * M = alpha * M := by
                ring
              linarith
            · rw [hmx]
              have hquad : (0:ℚ) ≤ (1 - alpha) * M * (1 - 2 * alpha) :=
                mul_nonneg (mul_nonneg (by linarith) hM) (by linarith)
              nlinarith [hquad]
    have hmaxle : max alpha (1 - alpha) ≤ 1 := by
      rcases max_cases alpha (1 - alpha) with ⟨hmx, _⟩ | ⟨hmx, _⟩ <;> rw [hmx] <;> linarith
    have hbound : |alpha * (prevY + a - prevX)| ≤ 2 * M := by
      calc |alpha * (prevY + a - prevX)|
          = |(alpha * (prevY + a - prevX) - alpha * a) + alpha * a| := by ring_nf
        _ ≤ |alpha * (prevY + a - prevX) - alpha * a| + |alpha * a| := abs_add _ _
        _ ≤ max alpha (1 - alpha) * M + alpha * M := by
            refine add_le_add hinv ?_
            rw [abs_mul, abs_of_nonneg h0]
            exact mul_le_mul_of_nonneg_left ha h0
        _ ≤ 1 * M + 1 * M := by
            exact add_le_add (mul_le_mul_of_nonneg_right hmaxle hM)
              (mul_le_mul_of_nonneg_right h1 hM)
        _ = 2 * M := by ring
    intro z hz
    simp only [highpassGo, List.mem_cons] at hz
    rcases hz with rfl | hz2
    · exact hbound
    · exact ih _ _ (fun b hb => hl b (by simp [hb])) ha hinv z hz2

theorem normalizeMono_mem_bound (x : List ℚ) (p : ℚ) (hp : 0 ≤ p) :
    ∀ y ∈ normalizeMono x p, |y| ≤ p := by
  intro y hy
  unfold normalizeMono at hy
  simp only [List.mem_map] at hy
  obtain ⟨v, hv, rfl⟩ := hy
  have hM : 0 ≤ peakAbs x := peakAbs_nonneg x
  have hpos : (0 : ℚ) < peakAbs x + eps := by
    have : (0:ℚ) < eps := by norm_num [eps]
    linarith
  have hvle : |v| ≤ peakAbs x + eps := by
    have h1 := abs_le_peakAbs x v hv
    have h2 : (0:ℚ) < eps := by norm_num [eps]
    linarith
  calc |v / (peakAbs x + eps) * p| = |v| / (peakAbs x + eps) * p := by
        rw [abs_mul, abs_div, abs_of_nonneg hp, abs_of_nonneg hpos.le]
    _ ≤ 1 * p := by
        apply mul_le_mul_of_nonneg_right _ hp
        rw [div_le_one hpos]
        exact hvle
    _ = p := one_mul p

/-- C8: for every cutoff in (0, Nyquist), the one-pole low-pass and
high-pass outputs never exceed twice the input peak magnitude, and for
feedback of magnitude below 1 the comb filter output stays bounded (by
its normalization target 0.9) after normalization. -/
theorem C8_filter_stability (x : List ℚ) (cutoff sr delayMs feedback : ℚ)
    (hc : 0 < cutoff) (hN : cutoff < sr / 2) (hsr : 0 < sr) :
    (∀ y ∈ lowpass x cutoff sr, |y| ≤ 2 * peakAbs x) ∧
    (∀ y ∈ highpass x cutoff sr, |y| ≤ 2 * peakAbs x) ∧
    (|feedback| < 1 → ∀ y ∈ combFilter x delayMs feedback sr, |y| ≤ 9/10) := by
  have hpi : (0 : ℚ) < piQ := by norm_num [piQ]
  have hrc : (0 : ℚ) < 1 / (2 * piQ * cutoff) := by positivity
  have hdt : (0 : ℚ) < 1 / sr := by positivity
  refine ⟨?_, ?_, ?_⟩
  · unfold lowpass
    cases x with
    | nil => simp
    | cons a as =>
      set alpha := (1 / sr) / (1 / (2 * piQ * cutoff) + 1 / sr) with halpha
      have h0 : 0 ≤ alpha := by positivity
      have h1 : alpha ≤ 1 := by
        rw [halpha, div_le_one (by positivity)]
        linarith
      intro y hy
      have hM : 0 ≤ peakAbs (a :: as) := peakAbs_nonneg _
      have hbig : ∀ z, |z| ≤ peakAbs (a :: as) → |z| ≤ 2 * peakAbs (a :: as) := by
        intro z hz
        linarith
      simp only [List.mem_cons] at hy
      rcases hy with rfl | hy2
      · exact hbig y (abs_le_peakAbs _ _ (by simp))
      · exact hbig y (lowpassGo_mem_bound alpha (peakAbs (a :: as)) h0 h1 as a
          (abs_le_peakAbs _ _ (by simp))
          (fun b hb => abs_le_peakAbs _ _ (by simp [hb])) y hy2)
  · unfold highpass
    cases x with
    | nil => simp
    | cons a as =>
      set alpha := (1 / (2 * piQ * cutoff)) / (1 / (2 * piQ * cutoff) + 1 / sr) with halpha
      have h0 : 0 ≤ alpha := by positivity
      have h1 : alpha ≤ 1 := by
        rw [halpha, div_le_one (by positivity)]
        linarith
      intro y hy
      have hM : 0 ≤ peakAbs (a :: as) := peakAbs_nonneg _
      have hamem : |a| ≤ peakAbs (a :: as) := abs_le_peakAbs _ _ (by simp)
      simp only [List.mem_cons] at hy
      rcases hy with rfl | hy2
      · linarith
      · refine highpassGo_mem_bound alpha (peakAbs (a :: as)) h0 h1 as a a
          (fun b hb => abs_le_peakAbs _ _ (by simp [hb])) hamem ?_ y hy2
        have hrw : a - alpha * a = (1 - alpha) * a := by ring
        rw [hrw, abs_mul, abs_of_nonneg (by linarith : (0:ℚ) ≤ 1 - alpha)]
        calc (1 - alpha) * |a| ≤ (1 - alpha) * peakAbs (a :: as) :=
              mul_le_mul_of_nonneg_left hamem (by linarith)
          _ ≤ max alpha (1 - alpha) * peakAbs (a :: as) :=
              mul_le_mul_of_nonneg_right (le_max_right _ _) hM
  · intro _ y hy
    exact normalizeMono_mem_bound _ _ (by norm_num) y hy

unseal Rat.mul Rat.add Rat.sub Rat.inv Rat.ofScientific in
/-- Witness for C8 on a concrete alternating signal, cutoff 100 Hz at
sample rate 44100, comb delay 2 ms with feedback 0.5. -/
theorem C8_filter_stability_witness :
    ((0 : ℚ) < 100 ∧ (100 : ℚ) < 44100 / 2 ∧ (0 : ℚ) < 44100) ∧
    (∀ y ∈ lowpass [(1 : ℚ), -1, 1] 100 44100, |y| ≤ 2 * peakAbs [(1 : ℚ), -1, 1]) ∧
    (∀ y ∈ highpass [(1 : ℚ), -1, 1] 100 44100, |y| ≤ 2 * peakAbs [(1 : ℚ), -1, 1]) ∧
    (|(1 : ℚ)/2| < 1 → ∀ y ∈ combFilter [(1 : ℚ), -1, 1] 2 (1/2) 44100, |y| ≤ 9/10) :=
  ⟨⟨by decide, by decide, by decide⟩,
    C8_filter_stability [(1 : ℚ), -1, 1] 100 44100 2 (1/2) (by decide) (by decide) (by decide)⟩

/-! ### Reverb characterization and C5 -/

theorem revTail_at (st : St) (dly : ℕ) (h1 : 1 ≤ dly) (h2 : dly ≤ st.length) :
    ∃ tl, revTail st dly = some tl ∧ tl.length = st.length ∧
      ∀ i < st.length, atS tl i = if dly ≤ i then atS st (i - dly) else (0, 0) := by
  rcases lt_or_eq_of_le h2 with hlt | heq
  · have hne : ¬ dly = 0 := by omega
    have hl : (List.replicate dly ((0:ℚ),(0:ℚ)) ++ List.take (st.length - dly) st).length
        = st.length := by simp; omega
    refine ⟨List.replicate dly ((0:ℚ),(0:ℚ)) ++ List.take (st.length - dly) st, ?_, hl, ?_⟩
    · unfold revTail
      simp only [hlt, if_true, hne, if_false, hl]
    · intro i hi
      by_cases hid : dly ≤ i
      · rw [atS_append_right _ _ _ (by simpa using hid)]
        simp only [List.length_replicate]
        rw [atS_take _ _ _ (by omega)]
        simp [hid]
      · rw [atS_append_left _ _ _ (by simp; omega), atS_replicate _ _ _ (by omega)]
        simp [hid]
  · have hnlt : ¬ dly < st.length := by omega
    refine ⟨List.replicate dly ((0:ℚ),(0:ℚ)), ?_, by simp [heq], ?_⟩
    · unfold revTail
      simp [hnlt, heq]
    · intro i hi
      have hid : ¬ dly ≤ i := by omega
      rw [atS_replicate _ _ _ (by omega)]
      simp [hid]

theorem revFold_char (st : St) (sr decay baseMs : ℚ) (jit : ℕ → ℚ)
    (idxs : List ℕ)
    (h : ∀ t ∈ idxs, 1 ≤ pyInt (sr * (baseMs * ((t + 1 : ℕ) : ℚ)) / 1000) ∧
      pyInt (sr * (baseMs * ((t + 1 : ℕ) : ℚ)) / 1000) ≤ st.length) :
    ∀ y : St, y.length = st.length →
      ∃ z, (idxs.foldlM (fun y tIdx =>
          (revTail st (pyInt (sr * (baseMs * ((tIdx + 1 : ℕ) : ℚ)) / 1000))).map
            (fun tail => revAddTap y tail (decay ^ (tIdx + 1)) (jit tIdx))) y) = some z ∧
        z.length = st.length ∧
        ∀ i < st.length,
          (atS z i).1 = (atS y i).1 + (idxs.map (fun t =>
            decay ^ (t + 1) *
              (if pyInt (sr * (baseMs * ((t + 1 : ℕ) : ℚ)) / 1000) ≤ i
                then (atS st (i - pyInt (sr * (baseMs * ((t + 1 : ℕ) : ℚ)) / 1000))).1
                else 0))).sum ∧
          (atS z i).2 = (atS y i).2 + (idxs.map (fun t =>
            decay ^ (t + 1) * (9/10 + (1/5) * jit t) *
              (if pyInt (sr * (baseMs * ((t + 1 : ℕ) : ℚ)) / 1000) ≤ i
                then (atS st (i - pyInt (sr * (baseMs * ((t + 1 : ℕ) : ℚ)) / 1000))).2
                else 0))).sum := by
  induction idxs with
  | nil =>
    intro y hy
    exact ⟨y, rfl, hy, fun i _ => by simp⟩
  | cons t ts ih =>
    intro y hy
    obtain ⟨h1, h2⟩ := h t (by simp)
    obtain ⟨tl, htl, htllen, htlat⟩ := revTail_at st _ h1 h2
    have hylen' : (revAddTap y tl (decay ^ (t + 1)) (jit t)).length = st.length := by
      rw [revAddTap_length, hy, htllen]
      omega
    obtain ⟨z, hz, hzlen, hzat⟩ := ih (fun u hu => h u (by simp [hu])) _ hylen'
    refine ⟨z, ?_, hzlen, ?_⟩
    · simp only [List.foldlM_cons, htl, Option.map_some, Option.some_bind]
      exact hz
    · intro i hi
      have hyat : atS (revAddTap y tl (decay ^ (t + 1)) (jit t)) i =
          ((atS y i).1 + decay ^ (t + 1) * (atS tl i).1,
           (atS y i).2 + decay ^ (t + 1) * (atS tl i).2 * (9/10 + (1/5) * jit t)) := by
        unfold revAddTap
        rw [atS_zipWith _ _ _ _ (by omega) (by omega)]
      obtain ⟨hz1, hz2⟩ := hzat i hi
      constructor
      · rw [hz1, hyat]
        simp only [List.map_cons, List.sum_cons]
        rw [htlat i hi]
        by_cases hid : pyInt (sr * (baseMs * ((t + 1 : ℕ) : ℚ)) / 1000) ≤ i
        · rw [if_pos hid, if_pos hid]
          ring
        · rw [if_neg hid, if_neg hid]
          ring
      · rw [hz2, hyat]
        simp only [List.map_cons, List.sum_cons]
        rw [htlat i hi]
        by_cases hid : pyInt (sr * (baseMs * ((t + 1 : ℕ) : ℚ)) / 1000) ≤ i
        · rw [if_pos hid, if_pos hid]
          ring
        · rw [if_neg hid, if_neg hid]
          ring

unseal Rat.mul Rat.add Rat.sub Rat.inv Rat.ofScientific in
/-- C5 counterexample: a single tap whose delay (2 samples) exceeds the
signal length (1 sample) does not contribute silence: the accumulation
is a numpy shape error, modelled as none, rather than the normalized
dry signal the claim implies. -/
theorem C5_counterexample :
    reverbSimple [((1:ℚ), (1:ℚ))] 1000 (1/2) 1 2 zeroDraws.jitter = none ∧
    reverbSimple [((1:ℚ), (1:ℚ))] 1000 (1/2) 1 2 zeroDraws.jitter ≠
      some (normalizeSt [((1:ℚ), (1:ℚ))] (19/20)) := by decide

/-- C5 amended: when every tap delay int(sr*baseDelayMs*t/1000) for
t = 1..tapCount is between 1 sample and the signal length, the reverb
accumulates, per tap, the dry signal delayed by that many samples
(zero-padded at the start; a delay equal to the length contributes
silence), scaled by decay^t on the left channel and additionally by
0.9 + 0.2*random() (a jitter in [0, 0.2)) on the right channel, and the
returned value is that sum peak-normalized to 0.95.  Delays larger than
the signal, or zero delays on a nonempty signal, instead raise a numpy
broadcast error. -/
theorem C5_reverb (st : St) (sr decay baseMs : ℚ) (numTaps : ℕ) (jit : ℕ → ℚ)
    (h : ∀ t < numTaps, 1 ≤ pyInt (sr * (baseMs * ((t + 1 : ℕ) : ℚ)) / 1000) ∧
      pyInt (sr * (baseMs * ((t + 1 : ℕ) : ℚ)) / 1000) ≤ st.length) :
    ∃ z : St, z.length = st.length ∧
      (∀ i < st.length,
        (atS z i).1 = (atS st i).1 + ((List.range numTaps).map (fun t =>
          decay ^ (t + 1) *
            (if pyInt (sr * (baseMs * ((t + 1 : ℕ) : ℚ)) / 1000) ≤ i
              then (atS st (i - pyInt (sr * (baseMs * ((t + 1 : ℕ) : ℚ)) / 1000))).1
              else 0))).sum ∧
        (atS z i).2 = (atS st i).2 + ((List.range numTaps).map (fun t =>
          decay ^ (t + 1) * (9/10 + (1/5) * jit t) *
            (if pyInt (sr * (baseMs * ((t + 1 : ℕ) : ℚ)) / 1000) ≤ i
              then (atS st (i - pyInt (sr * (baseMs * ((t + 1 : ℕ) : ℚ)) / 1000))).2
              else 0))).sum) ∧
      reverbSimple st sr decay numTaps baseMs jit = some (normalizeSt z (19/20)) := by
  obtain ⟨z, hz, hzlen, hzat⟩ := revFold_char st sr decay baseMs jit (List.range numTaps)
    (fun t ht => h t (List.mem_range.mp ht)) st rfl
  refine ⟨z, hzlen, hzat, ?_⟩
  unfold reverbSimple
  rw [hz]
  rfl

unseal Rat.mul Rat.add Rat.sub Rat.inv Rat.ofScientific in
/-- Witness for C5 amended: two taps of delays 1 and 2 samples on a
3-sample stereo signal. -/
theorem C5_reverb_witness :
    (∀ t < 2, 1 ≤ pyInt ((1000:ℚ) * (1 * ((t + 1 : ℕ) : ℚ)) / 1000) ∧
      pyInt ((1000:ℚ) * (1 * ((t + 1 : ℕ) : ℚ)) / 1000) ≤
        ([((1:ℚ), (2:ℚ)), (3, 4), (5, 6)] : St).length) ∧
    (∃ z : St, z.length = ([((1:ℚ), (2:ℚ)), (3, 4), (5, 6)] : St).length ∧
      (∀ i < ([((1:ℚ), (2:ℚ)), (3, 4), (5, 6)] : St).length,
        (atS z i).1 = (atS [((1:ℚ), (2:ℚ)), (3, 4), (5, 6)] i).1 +
          ((List.range 2).map (fun t =>
          (1/2 : ℚ) ^ (t + 1) *
            (if pyInt ((1000:ℚ) * (1 * ((t + 1 : ℕ) : ℚ)) / 1000) ≤ i
              then (atS [((1:ℚ), (2:ℚ)), (3, 4), (5, 6)]
                (i - pyInt ((1000:ℚ) * (1 * ((t + 1 : ℕ) : ℚ)) / 1000))).1
              else 0))).sum ∧
        (atS z i).2 = (atS [((1:ℚ), (2:ℚ)), (3, 4), (5, 6)] i).2 +
          ((List.range 2).map (fun t =>
          (1/2 : ℚ) ^ (t + 1) * (9/10 + (1/5) * zeroDraws.jitter t) *
            (if pyInt ((1000:ℚ) * (1 * ((t + 1 : ℕ) : ℚ)) / 1000) ≤ i
              then (atS [((1:ℚ), (2:ℚ)), (3, 4), (5, 6)]
                (i - pyInt ((1000:ℚ) * (1 * ((t + 1 : ℕ) : ℚ)) / 1000))).2
              else 0))).sum) ∧
      reverbSimple [((1:ℚ), (2:ℚ)), (3, 4), (5, 6)] 1000 (1/2) 2 1 zeroDraws.jitter =
        some (normalizeSt z (19/20))) :=
  ⟨by decide,
    C5_reverb [((1:ℚ), (2:ℚ)), (3, 4), (5, 6)] 1000 (1/2) 1 2 zeroDraws.jitter (by decide)⟩

/-! ### Draw-stream dependency (determinism) and C7 -/

theorem envelopeAdV1_length_of_some (n : ℕ) (a d sr : ℚ) (e : List ℚ)
    (h : envelopeAdV1 n a d sr = some e) : e.length = n := by
  have ha : pyInt (a * sr) ≤ n := by
    by_contra hn
    have hcond : 0 < pyInt (a * sr) ∧ n < pyInt (a * sr) := by omega
    unfold envelopeAdV1 at h
    simp [hcond] at h
  obtain ⟨e', he', hl⟩ := envelopeAdV1_some n a d sr ha
  rw [he', Option.some_inj] at h
  rw [← h, hl]

theorem envelopeAdV2_length_of_some (n : ℕ) (a d sr : ℚ) (e : List ℚ)
    (h : envelopeAdV2 n a d sr = some e) : e.length = n := by
  have ha : pyInt (a * sr) ≤ n := by
    by_contra hn
    unfold envelopeAdV2 at h
    simp [show n < pyInt (a * sr) by omega] at h
  obtain ⟨e', he', hl⟩ := envelopeAdV2_some n a d sr ha
  rw [he', Option.some_inj] at h
  rw [← h, hl]

theorem bellToneV1_length_of_some (osc : Osc) (du f sr : ℚ) (l : List ℚ)
    (h : bellToneV1 osc du f sr = some l) : l.length = pyInt (sr * du) := by
  unfold bellToneV1 at h
  obtain ⟨e, he, hl⟩ := Option.map_eq_some'.mp h
  have hel := envelopeAdV1_length_of_some _ _ _ _ _ he
  rw [← hl]
  simp [hel]

theorem bellToneV2_length_of_some (osc : Osc) (du f sr : ℚ) (l : List ℚ)
    (h : bellToneV2 osc du f sr = some l) : l.length = pyInt (sr * du) := by
  unfold bellToneV2 at h
  obtain ⟨e, he, hl⟩ := Option.map_eq_some'.mp h
  have hel := envelopeAdV2_length_of_some _ _ _ _ _ he
  rw [← hl]
  simp [hel]

theorem noiseList_congr (dr1 dr2 : Draws) (n : ℕ)
    (h : ∀ i < n, dr1.noise i = dr2.noise i) : noiseList dr1 n = noiseList dr2 n := by
  unfold noiseList
  exact List.map_congr_left (fun i hi => h i (List.mem_range.mp hi))

theorem reverbSimple_congr (st : St) (sr decay : ℚ) (numTaps : ℕ) (baseMs : ℚ)
    (j1 j2 : ℕ → ℚ) (h : ∀ t < numTaps, j1 t = j2 t) :
    reverbSimple st sr decay numTaps baseMs j1 = reverbSimple st sr decay numTaps baseMs j2 := by
  unfold reverbSimple
  suffices hs : ∀ idxs : List ℕ, (∀ t ∈ idxs, j1 t = j2 t) → ∀ y : St,
      (idxs.foldlM (fun y tIdx =>
        (revTail st (pyInt (sr * (baseMs * ((tIdx + 1 : ℕ) : ℚ)) / 1000))).map
          (fun tail => revAddTap y tail (decay ^ (tIdx + 1)) (j1 tIdx))) y) =
      (idxs.foldlM (fun y tIdx =>
        (revTail st (pyInt (sr * (baseMs * ((tIdx + 1 : ℕ) : ℚ)) / 1000))).map
          (fun tail => revAddTap y tail (decay ^ (tIdx + 1)) (j2 tIdx))) y) by
    rw [hs (List.range numTaps) (fun t ht => h t (List.mem_range.mp ht)) st]
  intro idxs
  induction idxs with
  | nil => exact fun _ _ => rfl
  | cons t ts ih =>
    intro hmem y
    simp only [List.foldlM_cons]
    rw [hmem t (by simp)]
    cases hrt : revTail st (pyInt (sr * (baseMs * ((t + 1 : ℕ) : ℚ)) / 1000)) with
    | none => simp [hrt]
    | some tail =>
      simp only [hrt, Option.map_some', Option.some_bind]
      exact ih (fun u hu => hmem u (by simp [hu])) _

theorem emberCrackles_congr (osc : Osc) (dr1 dr2 : Draws) (n : ℕ)
    (h : ∀ j < 18, dr1.pos j = dr2.pos j ∧ dr1.amp j = dr2.amp j) :
    emberCrackles osc dr1 n = emberCrackles osc dr2 n := by
  unfold emberCrackles
  suffices hs : ∀ idxs : List ℕ, (∀ j ∈ idxs, dr1.pos j = dr2.pos j ∧ dr1.amp j = dr2.amp j) →
      ∀ cr : List ℚ,
      (idxs.foldlM (fun cr j =>
        addSlice cr (dr1.pos j) ((List.range (pyInt ((15/1000) * SR))).map
          (fun i => osc.hann (pyInt ((15/1000) * SR)) i * (9/10 + (3/10) * dr1.amp j)))) cr) =
      (idxs.foldlM (fun cr j =>
        addSlice cr (dr2.pos j) ((List.range (pyInt ((15/1000) * SR))).map
          (fun i => osc.hann (pyInt ((15/1000) * SR)) i * (9/10 + (3/10) * dr2.amp j)))) cr) by
    rw [hs (List.range 18) (fun j hj => h j (List.mem_range.mp hj)) _]
  intro idxs
  induction idxs with
  | nil => exact fun _ _ => rfl
  | cons j js ih =>
    intro hmem cr
    obtain ⟨hp, hamp⟩ := hmem j (by simp)
    simp only [List.foldlM_cons, hp, hamp]
    cases ha : addSlice cr (dr2.pos j) ((List.range (pyInt ((15/1000) * SR))).map
        (fun i => osc.hann (pyInt ((15/1000) * SR)) i * (9/10 + (3/10) * dr2.amp j))) with
    | none => simp [ha]
    | some z =>
      exact ih (fun u hu => hmem u (by simp [hu])) z

theorem galeDry_congr (osc : Osc) (dr1 dr2 : Draws) (d : ℚ)
    (h : ∀ i < pyInt (SR * d), dr1.noise i = dr2.noise i) :
    galeDry osc dr1 d = galeDry osc dr2 d := by
  unfold galeDry
  simp only [noiseList_congr dr1 dr2 _ h]

theorem emberDry_congr (osc : Osc) (dr1 dr2 : Draws) (d : ℚ)
    (hn : ∀ i < pyInt (SR * d), dr1.noise i = dr2.noise i)
    (hpa : ∀ j < 18, dr1.pos j = dr2.pos j ∧ dr1.amp j = dr2.amp j) :
    emberDry osc dr1 d = emberDry osc dr2 d := by
  unfold emberDry
  simp only [noiseList_congr dr1 dr2 _ hn, emberCrackles_congr osc dr1 dr2 _ hpa]

theorem voidDry_congr (osc : Osc) (dr1 dr2 : Draws) (d : ℚ)
    (h : ∀ i < pyInt (SR * d), dr1.noise i = dr2.noise i) :
    voidDry osc dr1 d = voidDry osc dr2 d := by
  unfold voidDry
  simp only [noiseList_congr dr1 dr2 _ h]

theorem aegisDry_congr (osc : Osc) (dr1 dr2 : Draws) (d : ℚ) (bell : List ℚ)
    (h : ∀ i < pyInt (SR * d), dr1.noise i = dr2.noise i) :
    aegisDry osc dr1 d bell = aegisDry osc dr2 d bell := by
  unfold aegisDry
  simp only [noiseList_congr dr1 dr2 _ h]

/-- The random draws each recipe reads: gale reads noise only; ember
reads noise, 18 crackle position/amplitude pairs and 3 reverb jitters;
ward 4 jitters; snare 3 jitters; soothe noise and 4 jitters; void noise
and 4 jitters; aegis noise and 5 jitters. -/
def AgreeDraws (name : Name) (d : ℚ) (dr1 dr2 : Draws) : Prop :=
  match name with
  | .gale => ∀ i < pyInt (SR * d), dr1.noise i = dr2.noise i
  | .ember => (∀ i < pyInt (SR * d), dr1.noise i = dr2.noise i) ∧
      (∀ j < 18, dr1.pos j = dr2.pos j ∧ dr1.amp j = dr2.amp j) ∧
      (∀ t < 3, dr1.jitter t = dr2.jitter t)
  | .ward => ∀ t < 4, dr1.jitter t = dr2.jitter t
  | .snare => ∀ t < 3, dr1.jitter t = dr2.jitter t
  | .soothe => (∀ i < pyInt (SR * d), dr1.noise i = dr2.noise i) ∧
      (∀ t < 4, dr1.jitter t = dr2.jitter t)
  | .void => (∀ i < pyInt (SR * d), dr1.noise i = dr2.noise i) ∧
      (∀ t < 4, dr1.jitter t = dr2.jitter t)
  | .aegis => (∀ i < pyInt (SR * d), dr1.noise i = dr2.noise i) ∧
      (∀ t < 5, dr1.jitter t = dr2.jitter t)

theorem sfxGaleV1_congr (osc : Osc) (dr1 dr2 : Draws) (d : ℚ)
    (hn : ∀ i < pyInt (SR * d), dr1.noise i = dr2.noise i) :
    sfxGaleV1 osc dr1 d = sfxGaleV1 osc dr2 d := by
  unfold sfxGaleV1
  rw [galeDry_congr osc dr1 dr2 d hn]

theorem sfxGaleV2_congr (osc : Osc) (dr1 dr2 : Draws) (d : ℚ)
    (hn : ∀ i < pyInt (SR * d), dr1.noise i = dr2.noise i) :
    sfxGaleV2 osc dr1 d = sfxGaleV2 osc dr2 d := by
  unfold sfxGaleV2
  simp only [galeDry_congr osc dr1 dr2 d hn]

theorem sfxEmberV1_congr (osc : Osc) (dr1 dr2 : Draws) (d : ℚ)
    (hn : ∀ i < pyInt (SR * d), dr1.noise i = dr2.noise i)
    (hpa : ∀ j < 18, dr1.pos j = dr2.pos j ∧ dr1.amp j = dr2.amp j)
    (hj : ∀ t < 3, dr1.jitter t = dr2.jitter t) :
    sfxEmberV1 osc dr1 d = sfxEmberV1 osc dr2 d := by
  unfold sfxEmberV1
  rw [emberDry_congr osc dr1 dr2 d hn hpa]
  generalize emberDry osc dr2 d = o
  cases o with
  | none => simp only [Option.none_bind]
  | some x =>
    simp only [Option.some_bind]
    generalize fadeMono x SR (1/200) (1/10) = o2
    cases o2 with
    | none => simp only [Option.none_bind]
    | some xf =>
      simp only [Option.some_bind]
      exact reverbSimple_congr _ _ _ _ _ _ _ hj

theorem sfxEmberV2_congr (osc : Osc) (dr1 dr2 : Draws) (d : ℚ)
    (hn : ∀ i < pyInt (SR * d), dr1.noise i = dr2.noise i)
    (hpa : ∀ j < 18, dr1.pos j = dr2.pos j ∧ dr1.amp j = dr2.amp j)
    (hj : ∀ t < 3, dr1.jitter t = dr2.jitter t) :
    sfxEmberV2 osc dr1 d = sfxEmberV2 osc dr2 d := by
  unfold sfxEmberV2
  rw [emberDry_congr osc dr1 dr2 d hn hpa]
  generalize emberDry osc dr2 d = o
  cases o with
  | none => simp only [Option.none_bind]
  | some x =>
    simp only [Option.some_bind]
    rw [reverbSimple_congr _ _ _ _ _ _ _ hj]

theorem sfxWardV1_congr (osc : Osc) (dr1 dr2 : Draws) (d : ℚ)
    (hj : ∀ t < 4, dr1.jitter t = dr2.jitter t) :
    sfxWardV1 osc dr1 d = sfxWardV1 osc dr2 d := by
  unfold sfxWardV1
  generalize bellToneV1 osc d 520 SR = o
  cases o with
  | none => simp only [Option.none_bind]
  | some hit =>
    simp only [Option.some_bind]
    generalize fadeMono (wardMix hit) SR (1/500) (1/5) = o2
    cases o2 with
    | none => simp only [Option.none_bind]
    | some xf =>
      simp only [Option.some_bind]
      exact reverbSimple_congr _ _ _ _ _ _ _ hj

theorem sfxWardV2_congr (osc : Osc) (dr1 dr2 : Draws) (d : ℚ)
    (hj : ∀ t < 4, dr1.jitter t = dr2.jitter t) :
    sfxWardV2 osc dr1 d = sfxWardV2 osc dr2 d := by
  unfold sfxWardV2
  generalize bellToneV2 osc d 520 SR = o
  cases o with
  | none => simp only [Option.none_bind]
  | some hit =>
    simp only [Option.some_bind]
    rw [reverbSimple_congr _ _ _ _ _ _ _ hj]

theorem sfxSnareV1_congr (osc : Osc) (dr1 dr2 : Draws) (d : ℚ)
    (hj : ∀ t < 3, dr1.jitter t = dr2.jitter t) :
    sfxSnareV1 osc dr1 d = sfxSnareV1 osc dr2 d := by
  unfold sfxSnareV1
  generalize snareDry osc d = o
  cases o with
  | none => simp only [Option.none_bind]
  | some x =>
    simp only [Option.some_bind]
    generalize fadeMono x SR 0 (1/4) = o2
    cases o2 with
    | none => simp only [Option.none_bind]
    | some xf =>
      simp only [Option.some_bind]
      exact reverbSimple_congr _ _ _ _ _ _ _ hj

theorem sfxSnareV2_congr (osc : Osc) (dr1 dr2 : Draws) (d : ℚ)
    (hj : ∀ t < 3, dr1.jitter t = dr2.jitter t) :
    sfxSnareV2 osc dr1 d = sfxSnareV2 osc dr2 d := by
  unfold sfxSnareV2
  generalize snareDry osc d = o
  cases o with
  | none => simp only [Option.none_bind]
  | some x =>
    simp only [Option.some_bind]
    rw [reverbSimple_congr _ _ _ _ _ _ _ hj]

theorem sootheMix_congr (dr1 dr2 : Draws) (bell : List ℚ)
    (hn : ∀ i < bell.length, dr1.noise i = dr2.noise i) :
    sootheMix dr1 bell = sootheMix dr2 bell := by
  unfold sootheMix
  simp only [noiseList_congr dr1 dr2 _ hn]

theorem sfxSootheV1_congr (osc : Osc) (dr1 dr2 : Draws) (d : ℚ)
    (hn : ∀ i < pyInt (SR * d), dr1.noise i = dr2.noise i)
    (hj : ∀ t < 4, dr1.jitter t = dr2.jitter t) :
    sfxSootheV1 osc dr1 d = sfxSootheV1 osc dr2 d := by
  unfold sfxSootheV1
  generalize hb : bellToneV1 osc d 740 SR = o
  cases o with
  | none => simp only [Option.none_bind]
  | some bell =>
    simp only [Option.some_bind]
    have hbl := bellToneV1_length_of_some osc d 740 SR bell hb
    rw [sootheMix_congr dr1 dr2 bell (fun i hi => hn i (by omega))]
    generalize fadeMono (sootheMix dr2 bell) SR (1/100) (7/20) = o2
    cases o2 with
    | none => simp only [Option.none_bind]
    | some xf =>
      simp only [Option.some_bind]
      exact reverbSimple_congr _ _ _ _ _ _ _ hj

theorem sfxSootheV2_congr (osc : Osc) (dr1 dr2 : Draws) (d : ℚ)
    (hn : ∀ i < pyInt (SR * d), dr1.noise i = dr2.noise i)
    (hj : ∀ t < 4, dr1.jitter t = dr2.jitter t) :
    sfxSootheV2 osc dr1 d = sfxSootheV2 osc dr2 d := by
  unfold sfxSootheV2
  generalize hb : bellToneV2 osc d 740 SR = o
  cases o with
  | none => simp only [Option.none_bind]
  | some bell =>
    simp only [Option.some_bind]
    have hbl := bellToneV2_length_of_some osc d 740 SR bell hb
    simp only [sootheMix_congr dr1 dr2 bell (fun i hi => hn i (by omega))]
    rw [reverbSimple_congr _ _ _ _ _ _ _ hj]

theorem sfxVoidV1_congr (osc : Osc) (dr1 dr2 : Draws) (d : ℚ)
    (hn : ∀ i < pyInt (SR * d), dr1.noise i = dr2.noise i)
    (hj : ∀ t < 4, dr1.jitter t = dr2.jitter t) :
    sfxVoidV1 osc dr1 d = sfxVoidV1 osc dr2 d := by
  unfold sfxVoidV1
  simp only [voidDry_congr osc dr1 dr2 d hn]
  generalize fadeMono (voidDry osc dr2 d) SR (3/100) (1/5) = o
  cases o with
  | none => simp only [Option.none_bind]
  | some xf =>
    simp only [Option.some_bind]
    exact reverbSimple_congr _ _ _ _ _ _ _ hj

theorem sfxVoidV2_congr (osc : Osc) (dr1 dr2 : Draws) (d : ℚ)
    (hn : ∀ i < pyInt (SR * d), dr1.noise i = dr2.noise i)
    (hj : ∀ t < 4, dr1.jitter t = dr2.jitter t) :
    sfxVoidV2 osc dr1 d = sfxVoidV2 osc dr2 d := by
  unfold sfxVoidV2
  simp only [voidDry_congr osc dr1 dr2 d hn]
  rw [reverbSimple_congr _ _ _ _ _ _ _ hj]

theorem sfxAegisV1_congr (osc : Osc) (dr1 dr2 : Draws) (d : ℚ)
    (hn : ∀ i < pyInt (SR * d), dr1.noise i = dr2.noise i)
    (hj : ∀ t < 5, dr1.jitter t = dr2.jitter t) :
    sfxAegisV1 osc dr1 d = sfxAegisV1 osc dr2 d := by
  unfold sfxAegisV1
  generalize bellToneV1 osc d 880 SR = o
  cases o with
  | none => simp only [Option.none_bind]
  | some bell =>
    simp only [Option.some_bind]
    rw [aegisDry_congr osc dr1 dr2 d bell hn]
    generalize fadeMono (aegisDry osc dr2 d bell) SR (1/200) (7/20) = o2
    cases o2 with
    | none => simp only [Option.none_bind]
    | some xf =>
      simp only [Option.some_bind]
      exact reverbSimple_congr _ _ _ _ _ _ _ hj

theorem sfxAegisV2_congr (osc : Osc) (dr1 dr2 : Draws) (d : ℚ)
    (hn : ∀ i < pyInt (SR * d), dr1.noise i = dr2.noise i)
    (hj : ∀ t < 5, dr1.jitter t = dr2.jitter t) :
    sfxAegisV2 osc dr1 d = sfxAegisV2 osc dr2 d := by
  unfold sfxAegisV2
  generalize bellToneV2 osc d 880 SR = o
  cases o with
  | none => simp only [Option.none_bind]
  | some bell =>
    simp only [Option.some_bind]
    rw [aegisDry_congr osc dr1 dr2 d bell hn]
    rw [reverbSimple_congr _ _ _ _ _ _ _ hj]

/-- C7: for every recipe name and duration, the finished buffers of
both implementations are a deterministic function of the duration and
the random draws the recipe consumes: any two draw streams that agree
on that finite read set produce identical sample buffers. -/
theorem C7_determinism (name : Name) (osc : Osc) (d : ℚ) (dr1 dr2 : Draws)
    (h : AgreeDraws name d dr1 dr2) :
    renderV1 name osc dr1 d = renderV1 name osc dr2 d ∧
    renderV2 name osc dr1 d = renderV2 name osc dr2 d := by
  cases name with
  | gale =>
    exact ⟨sfxGaleV1_congr osc dr1 dr2 d h, sfxGaleV2_congr osc dr1 dr2 d h⟩
  | ember =>
    obtain ⟨hn, hpa, hj⟩ := h
    exact ⟨sfxEmberV1_congr osc dr1 dr2 d hn hpa hj, sfxEmberV2_congr osc dr1 dr2 d hn hpa hj⟩
  | ward =>
    exact ⟨sfxWardV1_congr osc dr1 dr2 d h, sfxWardV2_congr osc dr1 dr2 d h⟩
  | snare =>
    exact ⟨sfxSnareV1_congr osc dr1 dr2 d h, sfxSnareV2_congr osc dr1 dr2 d h⟩
  | soothe =>
    obtain ⟨hn, hj⟩ := h
    exact ⟨sfxSootheV1_congr osc dr1 dr2 d hn hj, sfxSootheV2_congr osc dr1 dr2 d hn hj⟩
  | void =>
    obtain ⟨hn, hj⟩ := h
    exact ⟨sfxVoidV1_congr osc dr1 dr2 d hn hj, sfxVoidV2_congr osc dr1 dr2 d hn hj⟩
  | aegis =>
    obtain ⟨hn, hj⟩ := h
    exact ⟨sfxAegisV1_congr osc dr1 dr2 d hn hj, sfxAegisV2_congr osc dr1 dr2 d hn hj⟩

unseal Rat.mul Rat.add Rat.sub Rat.inv Rat.ofScientific in
/-- Witness for C7: the ward recipe at its configured duration with two
draw streams agreeing on the four jitter draws it consumes. -/
theorem C7_determinism_witness :
    AgreeDraws Name.ward (9/10) zeroDraws zeroDraws ∧
    renderV1 Name.ward zeroOsc zeroDraws (9/10) = renderV1 Name.ward zeroOsc zeroDraws (9/10) :=
  ⟨fun t _ => rfl,
    (C7_determinism Name.ward zeroOsc (9/10) zeroDraws zeroDraws (fun t _ => rfl)).1⟩

/-! ### Zero-signal propagation and C1 -/

theorem atS_mem (l : St) (i : ℕ) (h : i < l.length) : atS l i ∈ l := by
  unfold atS
  rw [List.getD_eq_getElem?_getD, List.getElem?_eq_getElem h]
  exact List.getElem_mem h

theorem mem_atS (l : St) (a : ℚ × ℚ) (h : a ∈ l) : ∃ i < l.length, atS l i = a := by
  obtain ⟨i, hi, he⟩ := List.mem_iff_getElem.mp h
  refine ⟨i, hi, ?_⟩
  unfold atS
  rw [List.getD_eq_getElem?_getD, List.getElem?_eq_getElem hi, he]
  rfl

theorem zipWith_mul_zero_left (x l : List ℚ) (h : ∀ a ∈ x, a = 0) :
    ∀ b ∈ x.zipWith (· * ·) l, b = 0 := by
  induction x generalizing l with
  | nil => simp
  | cons a as ih =>
    cases l with
    | nil => simp
    | cons c cs =>
      intro b hb
      simp only [List.zipWith_cons_cons, List.mem_cons] at hb
      rcases hb with rfl | hb2
      · rw [h a (by simp)]
        ring
      · exact ih cs (fun u hu => h u (by simp [hu])) b hb2

theorem lowpassGo_zero (alpha prev : ℚ) (l : List ℚ) (hprev : prev = 0)
    (h : ∀ a ∈ l, a = 0) : ∀ y ∈ lowpassGo alpha prev l, y = 0 := by
  induction l generalizing prev with
  | nil => simp [lowpassGo]
  | cons a as ih =>
    intro y hy
    simp only [lowpassGo, List.mem_cons] at hy
    have hstep : prev + alpha * (a - prev) = 0 := by
      rw [hprev, h a (by simp)]
      ring
    rcases hy with rfl | hy2
    · exact hstep
    · exact ih _ hstep (fun u hu => h u (by simp [hu])) y hy2

theorem lowpass_zero (x : List ℚ) (c sr : ℚ) (h : ∀ a ∈ x, a = 0) :
    ∀ y ∈ lowpass x c sr, y = 0 := by
  unfold lowpass
  cases x with
  | nil => simp
  | cons a as =>
    intro y hy
    simp only [List.mem_cons] at hy
    rcases hy with rfl | hy2
    · exact h y (by simp)
    · exact lowpassGo_zero _ _ as (h a (by simp)) (fun u hu => h u (by simp [hu])) y hy2

theorem highpassGo_zero (alpha py px : ℚ) (l : List ℚ) (hy : py = 0) (hx : px = 0)
    (h : ∀ a ∈ l, a = 0) : ∀ y ∈ highpassGo alpha py px l, y = 0 := by
  induction l generalizing py px with
  | nil => simp [highpassGo]
  | cons a as ih =>
    intro y hmem
    simp only [highpassGo, List.mem_cons] at hmem
    have hstep : alpha * (py + a - px) = 0 := by
      rw [hy, hx, h a (by simp)]
      ring
    rcases hmem with rfl | h2
    · exact hstep
    · exact ih _ _ hstep (h a (by simp)) (fun u hu => h u (by simp [hu])) y h2

theorem highpass_zero (x : List ℚ) (c sr : ℚ) (h : ∀ a ∈ x, a = 0) :
    ∀ y ∈ highpass x c sr, y = 0 := by
  unfold highpass
  cases x with
  | nil => simp
  | cons a as =>
    intro y hy
    simp only [List.mem_cons] at hy
    rcases hy with rfl | hy2
    · exact h y (by simp)
    · exact highpassGo_zero _ _ _ as (h a (by simp)) (h a (by simp))
        (fun u hu => h u (by simp [hu])) y hy2

theorem normalizeMono_zero_mem (x : List ℚ) (p : ℚ) (h : ∀ a ∈ x, a = 0) :
    ∀ y ∈ normalizeMono x p, y = 0 := by
  intro y hy
  unfold normalizeMono at hy
  simp only [List.mem_map] at hy
  obtain ⟨v, hv, rfl⟩ := hy
  rw [h v hv]
  ring

theorem noiseList_zero (n : ℕ) : ∀ a ∈ noiseList zeroDraws n, a = 0 := by
  intro a ha
  unfold noiseList zeroDraws at ha
  simp only [List.mem_map] at ha
  obtain ⟨i, _, rfl⟩ := ha
  rfl

theorem galeDry_zero (osc : Osc) (d : ℚ) : ∀ a ∈ galeDry osc zeroDraws d, a = 0 := by
  unfold galeDry
  intro a ha
  refine normalizeMono_zero_mem _ _ ?_ a ha
  refine highpass_zero _ _ _ ?_
  exact zipWith_mul_zero_left _ _ (lowpass_zero _ _ _ (noiseList_zero _))

theorem stack2_zero (l r : List ℚ) (hl : ∀ a ∈ l, a = 0) (hr : ∀ a ∈ r, a = 0) :
    ∀ p ∈ stack2 l r, p = ((0:ℚ), (0:ℚ)) := by
  intro p hp
  unfold stack2 at hp
  cases p with
  | mk a b =>
    obtain ⟨h1, h2⟩ := List.mem_zip hp
    rw [hl a h1, hr b h2]

unseal Rat.mul Rat.add Rat.sub Rat.inv Rat.ofScientific in
/-- C1 counterexample: an all-zero noise draw is a possible random
stream; with it the gale recipe (V2 file) renders successfully at its
configured duration 0.9, but the finished asset is pure silence with
peak 0, not the configured peak 0.8: the normalization invariant on the
finished asset fails (the epsilon guard divides silence by 1e-12 and
the subsequent fade leaves the zeros unchanged). -/
theorem C1_counterexample :
    (sfxGaleV2 zeroOsc zeroDraws (9/10)).isSome = true ∧
    (sfxGaleV2 zeroOsc zeroDraws (9/10)).map peakAbsS = some 0 ∧
    ¬ (sfxGaleV2 zeroOsc zeroDraws (9/10)).map peakAbsS = some (4/5) := by
  have hdl : (galeDry zeroOsc zeroDraws (9/10)).length = 39690 := by
    rw [galeDry_length]
    decide
  have hstlen : (stack2 (galeDry zeroOsc zeroDraws (9/10))
      (lowpass (galeDry zeroOsc zeroDraws (9/10)) 900 SR)).length = 39690 := by
    rw [stack2_length, lowpass_length, hdl]
    simp
  have hstz : ∀ p ∈ stack2 (galeDry zeroOsc zeroDraws (9/10))
      (lowpass (galeDry zeroOsc zeroDraws (9/10)) 900 SR), p = ((0:ℚ), (0:ℚ)) :=
    stack2_zero _ _ (galeDry_zero zeroOsc (9/10))
      (lowpass_zero _ _ _ (galeDry_zero zeroOsc (9/10)))
  obtain ⟨y, hy, hylen, hyat⟩ := fadeSt_at
    (stack2 (galeDry zeroOsc zeroDraws (9/10))
      (lowpass (galeDry zeroOsc zeroDraws (9/10)) 900 SR)) SR (3/100) (12/100)
    (by rw [hstlen]; decide) (by rw [hstlen]; decide)
  have hyz : ∀ a ∈ y, a = ((0:ℚ), (0:ℚ)) := by
    intro a ha
    obtain ⟨i, hi, hia⟩ := mem_atS y a ha
    rw [hylen] at hi
    have hz : atS (stack2 (galeDry zeroOsc zeroDraws (9/10))
        (lowpass (galeDry zeroOsc zeroDraws (9/10)) 900 SR)) i = ((0:ℚ), (0:ℚ)) :=
      hstz _ (atS_mem _ i (by rw [hstlen]; rw [hstlen] at hi; exact hi))
    rw [← hia, hyat i hi, hz]
    simp
  have hmain : sfxGaleV2 zeroOsc zeroDraws (9/10) = some y := hy
  rw [hmain]
  refine ⟨rfl, ?_, ?_⟩
  · rw [Option.map_some', peakAbsS_zero_of y hyz]
  · rw [Option.map_some', peakAbsS_zero_of y hyz]
    intro hcontra
    rw [Option.some_inj] at hcontra
    norm_num at hcontra

theorem peakAbsS_scale (st : St) (c : ℚ) (hc : 0 ≤ c) :
    peakAbsS (st.map (fun v => (c * v.1, c * v.2))) = c * peakAbsS st := by
  induction st with
  | nil => simp [peakAbsS]
  | cons a as ih =>
    simp only [List.map_cons, peakAbsS, List.foldr_cons] at *
    rw [ih, abs_mul, abs_mul, abs_of_nonneg hc, mul_max_of_nonneg _ _ hc,
      mul_max_of_nonneg _ _ hc]

/-- C1 amended: at a peak-normalization stage with target peak p > 0
and a nonsilent input (peak M > 0), every sample of both channels is
scaled by the single global factor p / (M + 1e-12) computed from the
max over all channels, the output peak is exactly p * M / (M + 1e-12),
and that differs from p by at most p * 1e-12 / M (the floating-point
tolerance).  The recipe-level invariant fails for finished assets:
an all-zero draw renders to silence with peak 0, and the fades applied
after the last normalization can attenuate the peak sample further. -/
theorem C1_normalize_peak (st : St) (p : ℚ) (hp : 0 < p) (hM : 0 < peakAbsS st) :
    (∀ i < st.length, atS (normalizeSt st p) i =
      ((p / (peakAbsS st + eps)) * (atS st i).1,
       (p / (peakAbsS st + eps)) * (atS st i).2)) ∧
    peakAbsS (normalizeSt st p) = p * peakAbsS st / (peakAbsS st + eps) ∧
    |peakAbsS (normalizeSt st p) - p| ≤ p * eps / peakAbsS st := by
  have heps : (0:ℚ) < eps := by norm_num [eps]
  have hden : (0:ℚ) < peakAbsS st + eps := by linarith
  have hfuneq : (fun v : ℚ × ℚ => (v.1 / (peakAbsS st + eps) * p, v.2 / (peakAbsS st + eps) * p))
      = fun v : ℚ × ℚ => ((p / (peakAbsS st + eps)) * v.1, (p / (peakAbsS st + eps)) * v.2) := by
    funext v
    rw [Prod.mk.injEq]
    constructor
    · rw [div_mul_eq_mul_div, div_mul_eq_mul_div, mul_comm]
    · rw [div_mul_eq_mul_div, div_mul_eq_mul_div, mul_comm]
  have hnorm : normalizeSt st p
      = st.map (fun v => ((p / (peakAbsS st + eps)) * v.1, (p / (peakAbsS st + eps)) * v.2)) := by
    unfold normalizeSt
    simp only [hfuneq]
  have hc : (0:ℚ) ≤ p / (peakAbsS st + eps) := by positivity
  have hpk : peakAbsS (normalizeSt st p) = p * peakAbsS st / (peakAbsS st + eps) := by
    rw [hnorm, peakAbsS_scale st _ hc]
    rw [div_mul_eq_mul_div]
  refine ⟨?_, hpk, ?_⟩
  · intro i hi
    rw [hnorm, atS_map _ _ _ hi]
  · rw [hpk]
    have hval : p * peakAbsS st / (peakAbsS st + eps) - p = -(p * eps / (peakAbsS st + eps)) := by
      field_simp
      ring
    rw [hval, abs_neg, abs_of_nonneg (by positivity)]
    apply div_le_div_of_nonneg_left _ hM _
    · positivity
    · linarith

unseal Rat.mul Rat.add Rat.sub Rat.inv Rat.ofScientific in
/-- Witness for C1 amended on a concrete one-sample stereo signal. -/
theorem C1_normalize_peak_witness :
    ((0:ℚ) < 9/10 ∧ (0:ℚ) < peakAbsS [((1:ℚ)/2, (-1:ℚ))]) ∧
    peakAbsS (normalizeSt [((1:ℚ)/2, (-1:ℚ))] (9/10)) =
      (9/10) * peakAbsS [((1:ℚ)/2, (-1:ℚ))] / (peakAbsS [((1:ℚ)/2, (-1:ℚ))] + eps) :=
  ⟨⟨by decide, by decide⟩,
    (C1_normalize_peak [((1:ℚ)/2, (-1:ℚ))] (9/10) (by decide) (by decide)).2.1⟩

/-! ### Mono fade characterization, ramp bounds, comb positivity -/

/-- An oracle instance with all transcendental values one. -/
def oneOsc : Osc := ⟨fun _ _ => 1, fun _ _ => 1, fun _ _ => 1⟩

theorem at0_mem (l : List ℚ) (i : ℕ) (h : i < l.length) : at0 l i ∈ l := by
  unfold at0
  rw [List.getD_eq_getElem?_getD, List.getElem?_eq_getElem h]
  exact List.getElem_mem h

theorem mulSlicePre_at (x g : List ℚ) (i : ℕ) (h : g.length ≤ x.length) :
    at0 (mulSlicePre x g) i =
      if i < g.length then at0 x i * at0 g i else at0 x i := by
  unfold mulSlicePre
  by_cases h1 : i < g.length
  · rw [at0_append_left _ _ _ (by simp; omega)]
    rw [at0_zipWith _ _ _ _ (by simp; omega) h1, at0_take _ _ _ h1]
    simp [h1]
  · rw [at0_append_right _ _ _ (by simp; omega)]
    have hlz : ((x.take g.length).zipWith (· * ·) g).length = g.length := by simp; omega
    rw [hlz, at0_drop]
    have heq : g.length + (i - g.length) = i := by omega
    rw [heq]
    simp [h1]

theorem mulSliceSuf_at (x g : List ℚ) (i : ℕ) (h : g.length ≤ x.length) :
    at0 (mulSliceSuf x g) i =
      if x.length - g.length ≤ i ∧ i < x.length then
        at0 x i * at0 g (i - (x.length - g.length))
      else at0 x i := by
  unfold mulSliceSuf
  have htl : (x.take (x.length - g.length)).length = x.length - g.length := by simp
  by_cases h1 : i < x.length - g.length
  · rw [at0_append_left _ _ _ (by rw [htl]; omega), at0_take _ _ _ h1,
      if_neg (by omega : ¬ (x.length - g.length ≤ i ∧ i < x.length))]
  · rw [at0_append_right _ _ _ (by rw [htl]; omega), htl]
    by_cases h2 : i < x.length
    · rw [at0_zipWith _ _ _ _ (by simp; omega) (by omega), at0_drop]
      have heq : x.length - g.length + (i - (x.length - g.length)) = i := by omega
      rw [heq, if_pos (by omega : x.length - g.length ≤ i ∧ i < x.length)]
    · have hz : ((x.drop (x.length - g.length)).zipWith (· * ·) g).length
          ≤ i - (x.length - g.length) := by
        simp
        omega
      rw [at0_of_ge _ _ hz, at0_of_ge _ _ (by omega),
        if_neg (by omega : ¬ (x.length - g.length ≤ i ∧ i < x.length))]

theorem fadeMono_at (x : List ℚ) (sr a b : ℚ)
    (hfi : pyInt (sr * a) ≤ x.length) (hfo : pyInt (sr * b) ≤ x.length) :
    ∃ y, fadeMono x sr a b = some y ∧ y.length = x.length ∧
      ∀ i < x.length, at0 y i =
        fadeGain x.length (pyInt (sr * a)) (pyInt (sr * b)) i * at0 x i := by
  obtain ⟨y, hy, hyl⟩ := fadeMono_some x sr a b hfi hfo
  refine ⟨y, hy, hyl, ?_⟩
  intro i hi
  unfold fadeMono at hy
  set fi := pyInt (sr * a) with hfidef
  set fo := pyInt (sr * b) with hfodef
  have hcond : ¬ ((0 < fi ∧ x.length < fi) ∨ (0 < fo ∧ x.length < fo)) := by omega
  simp only [hcond, if_false, Option.some_inj] at hy
  subst hy
  set x1 := if 0 < fi then mulSlicePre x (linspace 0 1 fi) else x with hx1
  have hx1len : x1.length = x.length := by
    rw [hx1]
    split
    · rw [mulSlicePre_length] <;> simp [linspace_length, hfi]
    · rfl
  have hat1 : at0 x1 i = (if i < fi then linspaceVal 0 1 fi i else 1) * at0 x i := by
    rw [hx1]
    by_cases h0 : 0 < fi
    · simp only [h0, if_true]
      rw [mulSlicePre_at _ _ _ (by simp [linspace_length, hfi]), linspace_length]
      split
      · rename_i hilt
        rw [linspace_at _ _ _ _ hilt]
        simp [hilt, mul_comm]
      · rename_i hilt
        simp [hilt]
    · have : ¬ i < fi := by omega
      simp [h0, this]
  by_cases hfo0 : 0 < fo
  · simp only [hfo0, if_true]
    rw [mulSliceSuf_at _ _ _ (by simp [linspace_length, hx1len, hfo]), linspace_length, hx1len]
    unfold fadeGain
    by_cases hmid : x.length - fo ≤ i ∧ i < x.length
    · rw [if_pos hmid, if_pos hmid, linspace_at _ _ _ _ (by omega), hat1]
      ring_nf
    · rw [if_neg hmid, if_neg hmid, hat1]
      ring_nf
  · have hmid : ¬ (x.length - fo ≤ i ∧ i < x.length) := by omega
    simp only [hfo0, if_false]
    rw [hat1]
    unfold fadeGain
    rw [if_neg hmid]
    ring_nf

theorem linspaceVal_down_bounds (e : ℚ) (he0 : 0 ≤ e) (he1 : e ≤ 1) (m j : ℕ)
    (hj : j < m) : e ≤ linspaceVal 1 e m j ∧ linspaceVal 1 e m j ≤ 1 := by
  unfold linspaceVal
  have hr0 : (0:ℚ) ≤ (j : ℚ) / ((m : ℚ) - 1) := by
    apply div_nonneg (by positivity)
    have : (1:ℚ) ≤ (m : ℚ) := by exact_mod_cast Nat.one_le_iff_ne_zero.mpr (by omega)
    linarith
  have hr1 : (j : ℚ) / ((m : ℚ) - 1) ≤ 1 := by
    rcases Nat.lt_or_ge m 2 with hm | hm
    · have : j = 0 := by omega
      subst this
      simp
    · apply div_le_one_of_le
      · have : (j : ℚ) ≤ (m : ℚ) - 1 := by
          have : j ≤ m - 1 := by omega
          have hc : ((j : ℚ)) ≤ ((m - 1 : ℕ) : ℚ) := by exact_mod_cast this
          have hm1 : ((m - 1 : ℕ) : ℚ) = (m : ℚ) - 1 := by
            have h1 : 1 ≤ m := by omega
            push_cast [h1]
            ring
          rw [hm1] at hc
          exact hc
        exact this
      · have : (2:ℚ) ≤ (m : ℚ) := by exact_mod_cast hm
        linarith
  have hassoc : (e - 1) * (j : ℚ) / ((m : ℚ) - 1) = (e - 1) * ((j : ℚ) / ((m : ℚ) - 1)) := by
    ring
  rw [hassoc]
  constructor
  · have : (e - 1) * ((j : ℚ) / ((m : ℚ) - 1)) ≥ (e - 1) * 1 := by
      apply mul_le_mul_of_nonpos_left hr1 (by linarith)
    linarith
  · have : (e - 1) * ((j : ℚ) / ((m : ℚ) - 1)) ≤ 0 := by
      apply mul_nonpos_of_nonpos_of_nonneg (by linarith) hr0
    linarith

theorem linspaceVal_up_nonneg (m j : ℕ) (hj : j < m) : 0 ≤ linspaceVal 0 1 m j := by
  unfold linspaceVal
  have : (1:ℚ) ≤ (m : ℚ) := by exact_mod_cast Nat.one_le_iff_ne_zero.mpr (by omega)
  have h1 : (0:ℚ) ≤ (m : ℚ) - 1 := by linarith
  positivity

theorem fadeGain_nonneg (n fi fo i : ℕ) (hi : i < n) : 0 ≤ fadeGain n fi fo i := by
  unfold fadeGain
  apply mul_nonneg
  · split
    · exact linspaceVal_up_nonneg _ _ (by omega)
    · norm_num
  · split
    · rename_i hmid
      exact (linspaceVal_down_bounds 0 le_rfl (by norm_num) fo (i - (n - fo)) (by omega)).1
    · norm_num

theorem envSpecV1_nonneg (n aN dN i : ℕ) : 0 ≤ envSpecV1 n aN dN i := by
  unfold envSpecV1
  split
  · exact linspaceVal_up_nonneg _ _ (by omega)
  · split
    · rename_i h1 h2
      have := (linspaceVal_down_bounds (1/5) (by norm_num) (by norm_num) dN (i - aN)
        (by omega)).1
      linarith
    · norm_num

theorem combFun_nonneg (x : List ℚ) (d : ℕ) (f : ℚ) (hx : ∀ j, 0 ≤ at0 x j)
    (hf : 0 ≤ f) (i : ℕ) : 0 ≤ combFun x d f i := by
  induction i using Nat.strong_induction_on with
  | _ i ih =>
    rw [combFun]
    split
    · rename_i hcond
      have := ih (i - d) (by omega)
      have := hx i
      positivity
    · exact hx i

theorem combFun_ge (x : List ℚ) (d : ℕ) (f : ℚ) (hx : ∀ j, 0 ≤ at0 x j)
    (hf : 0 ≤ f) (i : ℕ) : at0 x i ≤ combFun x d f i := by
  rw [combFun]
  split
  · rename_i hcond
    have h1 := combFun_nonneg x d f hx hf (i - d)
    nlinarith
  · exact le_rfl

theorem normalizeMono_at (x : List ℚ) (p : ℚ) (i : ℕ) (h : i < x.length) :
    at0 (normalizeMono x p) i = at0 x i / (peakAbs x + eps) * p := by
  simp only [normalizeMono]
  rw [at0_map _ _ _ h]

theorem normalizeSt_at (st : St) (p : ℚ) (i : ℕ) (h : i < st.length) :
    atS (normalizeSt st p) i =
      ((atS st i).1 / (peakAbsS st + eps) * p, (atS st i).2 / (peakAbsS st + eps) * p) := by
  simp only [normalizeSt]
  rw [atS_map _ _ _ h]

theorem partialSum_one (f t : ℚ) : partialSum oneOsc f t = 2 := by
  simp only [partialSum, oneOsc]
  norm_num

end WitcherSfx
